import Mathlib

/-!
Verification of the editable-document consistency engine of the mawejs
repository (SlateJS-based manuscript editor).

The development shallowly embeds the JavaScript source:

* Persisted-document nodes and the Slate→Doc bridge (`section2edit`,
  `updateSection`, `checkClean`, `cmpType`, `cmpList`, ...) are embedded as
  functions over `JNode`/`JList`.  JavaScript objects are modelled
  structurally; in every flow analysed here a freshly constructed object
  differs structurally from every pre-existing object it is compared with,
  so JavaScript reference equality (`===`) is modelled by structural
  equality.  JavaScript `undefined` fields are modelled by `Option`.
  Runtime type errors (calling a missing method, reading a property of
  `undefined`/`null`) are modelled by `Except String`.
* The editable tree and the editor customizations (`withFixNesting`,
  `withIDs`, `withProtectFolds`, `withMarkup`) are embedded as functions
  over `ENode`/`EList` together with a worklist normalization loop that
  re-checks paths in bottom-up (reverse document) order until a fixed
  point is reached, following the host substrate's normalization contract.

External collaborators (the word-count function `wcElem`, the identifier
generator `nanoid`, the lookup builder `section2lookup`) are not part of
the sources; they are taken as parameters or modelled from the spec where
noted.
-/

/-! ## Persisted document model (Doc side of the bridge) -/

mutual
/-- Node of the persisted document tree (plain JS object).  `text s` is a
text leaf; `elem id type name folded words children` is an element node,
with `none` standing for a JS `undefined` field. -/
inductive JNode : Type where
  | text : String → JNode
  | elem : Option String → String → Option String → Option Bool → Option Nat → JList → JNode
  deriving DecidableEq
/-- List of persisted nodes (a JS array). -/
inductive JList : Type where
  | nil : JList
  | cons : JNode → JList → JList
  deriving DecidableEq
end

/-- Property access `node.id` (text nodes have no `id`, giving `undefined`). -/
def jid : JNode → Option String
  | .text _ => none
  | .elem id _ _ _ _ _ => id

/-- Property access `node.type` (`undefined` on text leaves). -/
def jtype : JNode → Option String
  | .text _ => none
  | .elem _ ty _ _ _ _ => some ty

/-- Property access `node.name`. -/
def jname : JNode → Option String
  | .text _ => none
  | .elem _ _ nm _ _ _ => nm

/-- Property access `node.folded`. -/
def jfolded : JNode → Option Bool
  | .text _ => none
  | .elem _ _ _ f _ _ => f

/-- Property access `node.text` (`undefined` on element nodes). -/
def jtext : JNode → Option String
  | .text s => some s
  | .elem _ _ _ _ _ _ => none

/-- Property access `node.children` (`undefined` on text leaves). -/
def jchildren : JNode → Option JList
  | .text _ => none
  | .elem _ _ _ _ _ kids => some kids

/-- Array access `children[0]`. -/
def jhead : JList → Option JNode
  | .nil => none
  | .cons x _ => some x

/-- Array destructuring `const [head, ...rest] = children` (the rest part). -/
def jtail : JList → JList
  | .nil => .nil
  | .cons _ t => t

/-- Length of a node list. -/
def jlen : JList → Nat
  | .nil => 0
  | .cons _ t => jlen t + 1

/-- Map over a node list (JS `Array.prototype.map`). -/
def jmapJ (f : JNode → JNode) : JList → JList
  | .nil => .nil
  | .cons x xs => .cons (f x) (jmapJ f xs)

/-- Conversion to a Lean list, used to state membership facts. -/
def toListJ : JList → List JNode
  | .nil => []
  | .cons x xs => x :: toListJ xs

/-- Bool-valued universal quantifier over a node list. -/
def jall (f : JNode → Bool) : JList → Bool
  | .nil => true
  | .cons x xs => f x && jall f xs

/-- Map with a threaded counter, modelling a JS `map` whose callback calls
the identifier generator: calls happen left to right. -/
def mapAccumJ (f : JNode → Nat → JNode × Nat) : JList → Nat → JList × Nat
  | .nil, n => (.nil, n)
  | .cons x xs, n =>
    let yn := f x n
    let ysn := mapAccumJ f xs yn.2
    (.cons yn.1 ysn.1, ysn.2)

/-- Effectful map (JS `map` whose callback may throw): the first thrown
error aborts the whole map, as in JavaScript. -/
def jmapM (f : JNode → Except String JNode) : JList → Except String JList
  | .nil => .ok .nil
  | .cons x xs => (f x).bind fun y => (jmapM f xs).map fun ys => .cons y ys

/-- Persisted section object: the fields of `section` read by the bridge
(`section.parts` and the `words` cache; the object spread `{...section}`
keeps any further fields, which no analysed claim observes). -/
structure Section where
  parts : JList
  words : Option Nat
  deriving DecidableEq

/-! ## Doc → Slate (`section2edit`) -/

/-- Source `elem2edit`: legacy `br` paragraphs are rewritten (a fresh object
with `type: "p"`, all other fields spread-copied); every other node is
returned unchanged (same object). -/
def elem2edit (e : JNode) : JNode :=
  match e with
  | .elem id ty nm f w kids => if ty = "br" then .elem id "p" nm f w kids else e
  | t => t

/-- Source `scene2edit`: builds the editable scene with an injected
`hscene` header (text = `name ?? ""`, fresh generated id) followed by the
mapped paragraphs.  `gen` is the identifier generator `nanoid`, `n` its
call counter.  A text node in place of a scene would make JavaScript throw
while spreading `children`; that case never arises for the sections
considered and is returned unchanged. -/
def scene2edit (gen : Nat → String) (scene : JNode) (n : Nat) : JNode × Nat :=
  match scene with
  | .elem id _ nm f _ kids =>
    (.elem id "scene" nm f none
      (.cons (.elem (some (gen n)) "hscene" none none none (.cons (.text (nm.getD "")) .nil))
        (jmapJ elem2edit kids)), n + 1)
  | t => (t, n)

/-- Source `part2edit`: editable part with an injected `hpart` header
followed by the mapped scenes. -/
def part2edit (gen : Nat → String) (part : JNode) (n : Nat) : JNode × Nat :=
  match part with
  | .elem id _ nm f _ kids =>
    let scs := mapAccumJ (scene2edit gen) kids (n + 1)
    (.elem id "part" nm f none
      (.cons (.elem (some (gen n)) "hpart" none none none (.cons (.text (nm.getD "")) .nil))
        scs.1), scs.2)
  | t => (t, n)

/-- Source `section2edit`: the editable buffer obtained from a persisted
section (`section.parts.map(part2edit)`), threading the generator counter. -/
def section2edit (gen : Nat → String) (s : Section) (n : Nat) : JList × Nat :=
  mapAccumJ (part2edit gen) s.parts n

/-! ## Slate → Doc (`updateSection`) -/

/-- Lookup value flowing into `checkClean`: either the `Map` produced by
`section2lookup`, or the plain-object fallback `{}` used by
`updateSection` when no previous section is given (a plain object has no
`has` method, so calling it throws). -/
inductive Lookup : Type where
  | plainObject : Lookup
  | map : List (Option String × JNode) → Lookup

/-- Association-list lookup modelling `Map.prototype.get`. -/
def lookupA : List (Option String × JNode) → Option String → Option JNode
  | [], _ => none
  | (k, v) :: rest, key => if k = key then some v else lookupA rest key

/-- Modelled from the spec: per-scene entries of the lookup builder
`section2lookup` (document/util, not part of the sources) — a map from
persisted node `id` to node, seeded with the scene and its paragraphs. -/
def sceneEntries (sc : JNode) : List (Option String × JNode) :=
  match sc with
  | .elem _ _ _ _ _ kids => (jid sc, sc) :: (toListJ kids).map (fun p => (jid p, p))
  | .text _ => []

/-- Modelled from the spec: per-part entries of `section2lookup`. -/
def partEntries (pt : JNode) : List (Option String × JNode) :=
  match pt with
  | .elem _ _ _ _ _ kids => (jid pt, pt) :: (toListJ kids).flatMap sceneEntries
  | .text _ => []

/-- Modelled from the spec: all entries of `section2lookup`. -/
def sectionEntries (parts : JList) : List (Option String × JNode) :=
  (toListJ parts).flatMap partEntries

/-- Modelled from the spec: `section2lookup(section)` builds a `Map` from
persisted node id to node over the section's parts, scenes and
paragraphs. -/
def section2lookup (s : Section) : Lookup :=
  .map (sectionEntries s.parts)

/-- Source `cmpType`: same `id` and same `type` (JS `===` on the two
fields; `undefined === undefined` is true, hence `Option` equality). -/
def cmpType (e o : JNode) : Bool :=
  jid e == jid o && jtype e == jtype o

/-- Source `cmpTypeName`. -/
def cmpTypeName (e o : JNode) : Bool :=
  cmpType e o && jname e == jname o

/-- Source `cmpList`: reference equality of the arrays, else equal length
and element-wise reference equality — which is exactly element-wise
structural equality in this model. -/
def cmpList : JList → JList → Bool
  | .nil, .nil => true
  | .cons x xs, .cons y ys => x == y && cmpList xs ys
  | _, _ => false

/-- Source `cmpChildren` (both arguments are containers, hence elements,
wherever this is called; the text case would be a JS type error and is
unreachable). -/
def cmpChildren (e o : JNode) : Bool :=
  match jchildren e, jchildren o with
  | some a, some b => cmpList a b
  | _, _ => false

/-- Source `cmpNamedGroup`. -/
def cmpNamedGroup (e o : JNode) : Bool :=
  cmpTypeName e o && jfolded e == jfolded o && cmpChildren e o

/-- Rebuild branch of `checkClean`: `{...elem, words: wcElem(elem)}` with
`wc` the external word-count function.  Spreading a text node would
produce a `{text, words}` object; that case never arises for the inputs
considered and is returned unchanged. -/
def rebuildElem (wc : JNode → Nat) (e : JNode) : JNode :=
  match e with
  | .elem id ty nm f _ kids => .elem id ty nm f (some (wc e)) kids
  | .text s => .text s

/-- Source `checkClean`: decides whether the previous persisted node with
the same id can be reused.  Calling `has` on the plain-object fallback
lookup throws, as does reading `.text` of `children[0]` when `children`
is empty. -/
def checkClean (wc : JNode → Nat) (elem : JNode) (lookup : Lookup) : Except String JNode :=
  match lookup with
  | .plainObject => .error "TypeError: lookup.has is not a function"
  | .map entries =>
    match lookupA entries (jid elem) with
    | some orig =>
      if elem = orig then .ok orig
      else if cmpType elem orig then
        if jtype elem == some "part" || jtype elem == some "scene" then
          if cmpNamedGroup elem orig then .ok orig else .ok (rebuildElem wc elem)
        else if jtype elem == some "br" then .ok orig
        else
          match jchildren elem with
          | none => .error "TypeError: cannot read 0 of undefined"
          | some ekids =>
            match jhead ekids with
            | none => .error "TypeError: cannot read text of undefined"
            | some ec =>
              match jchildren orig with
              | none => .error "TypeError: cannot read 0 of undefined"
              | some okids =>
                match jhead okids with
                | none => .error "TypeError: cannot read text of undefined"
                | some oc =>
                  if jtext ec == jtext oc then .ok orig else .ok (rebuildElem wc elem)
      else .ok (rebuildElem wc elem)
    | none => .ok (rebuildElem wc elem)

/-- Source `edit2paragraph`. -/
def edit2paragraph (wc : JNode → Nat) (lookup : Lookup) (e : JNode) : Except String JNode :=
  checkClean wc e lookup

/-- Source `edit2scene`: drops the header child, maps the paragraphs and
runs `checkClean` on the freshly built scene record (which carries no
`words` field). -/
def edit2scene (wc : JNode → Nat) (lookup : Lookup) (scene : JNode) : Except String JNode :=
  match scene with
  | .text _ => .error "TypeError: cannot destructure children"
  | .elem id _ nm f _ kids =>
    (jmapM (edit2paragraph wc lookup) (jtail kids)).bind fun ps =>
      checkClean wc (.elem id "scene" nm f none ps) lookup

/-- Source `edit2part`. -/
def edit2part (wc : JNode → Nat) (lookup : Lookup) (part : JNode) : Except String JNode :=
  match part with
  | .text _ => .error "TypeError: cannot destructure children"
  | .elem id _ nm f _ kids =>
    (jmapM (edit2scene wc lookup) (jtail kids)).bind fun scs =>
      checkClean wc (.elem id "part" nm f none scs) lookup

/-- Source `updateSection`: commits an editable buffer against the
previous persisted section.  With no previous section the lookup falls
back to a plain object `{}`, and `section.parts` is read unconditionally
for the final cleanliness comparison. -/
def updateSection (wc : JNode → Nat) (buffer : JList) (sect : Option Section) :
    Except String Section :=
  let lookup := match sect with
    | some s => section2lookup s
    | none => .plainObject
  (jmapM (edit2part wc lookup) buffer).bind fun updated =>
    match sect with
    | none => .error "TypeError: cannot read parts of null"
    | some s =>
      if cmpList updated s.parts then .ok s
      else .ok { parts := updated, words := some (wc (.elem none "sect" none none none updated)) }

/-! ## Well-formed persisted sections -/

/-- Persisted paragraph of the data model: an element with an id; a legacy
`br` paragraph is well formed too (its type is rewritten on opening). -/
def isPara : JNode → Bool
  | .elem id _ _ _ _ _ => id.isSome
  | .text _ => false

/-- Paragraph that is not a legacy `br` node. -/
def isParaNoBr : JNode → Bool
  | .elem id ty _ _ _ _ => id.isSome && ty ≠ "br"
  | .text _ => false

/-- Persisted scene: element of type `scene` whose children are paragraphs. -/
def isWFscene (paraOk : JNode → Bool) : JNode → Bool
  | .elem id ty _ _ _ kids => id.isSome && ty == "scene" && jall paraOk kids
  | .text _ => false

/-- Persisted part: element of type `part` whose children are scenes. -/
def isWFpart (paraOk : JNode → Bool) : JNode → Bool
  | .elem id ty _ _ _ kids => id.isSome && ty == "part" && jall (isWFscene paraOk) kids
  | .text _ => false

/-- Keys of the modelled lookup, in insertion order. -/
def sectionKeys (parts : JList) : List (Option String) :=
  (sectionEntries parts).map Prod.fst

/-- Well-formed persisted section with pairwise-distinct node ids; the
paragraph predicate is a parameter so that the round-trip statement can
additionally exclude legacy `br` paragraphs. -/
def WFsection (paraOk : JNode → Bool) (s : Section) : Prop :=
  jall (isWFpart paraOk) s.parts = true ∧ (sectionKeys s.parts).Nodup

/-! ## Editable tree (Slate side) -/

mutual
/-- Node of the editable Slate tree: a text leaf or an element with `id`
(`""` models a missing id, which is falsy like `undefined`), `type`,
`name`, `folded` (missing is falsy, hence `false`) and children. -/
inductive ENode : Type where
  | text : String → ENode
  | elem : String → String → Option String → Bool → EList → ENode
  deriving DecidableEq
/-- Children array of the editable tree. -/
inductive EList : Type where
  | nil : EList
  | cons : ENode → EList → EList
  deriving DecidableEq
end

/-- Property access `node.type` on an editable node. -/
def etype : ENode → Option String
  | .text _ => none
  | .elem _ ty _ _ _ => some ty

/-- Property access `node.name` on an editable node. -/
def ename : ENode → Option String
  | .text _ => none
  | .elem _ _ nm _ _ => nm

/-- Truthiness of `node.folded`. -/
def efolded : ENode → Bool
  | .text _ => false
  | .elem _ _ _ f _ => f

/-- Length of a children array. -/
def elen : EList → Nat
  | .nil => 0
  | .cons _ t => elen t + 1

/-- Array indexing `children[i]`. -/
def egetIdx : EList → Nat → Option ENode
  | .nil, _ => none
  | .cons x _, 0 => some x
  | .cons _ xs, i + 1 => egetIdx xs i

/-- Update of the element at an index (identity when out of range). -/
def emodifyIdx : EList → Nat → (ENode → ENode) → EList
  | .nil, _, _ => .nil
  | .cons x xs, 0, f => .cons (f x) xs
  | .cons x xs, i + 1, f => .cons x (emodifyIdx xs i f)

/-- Removal of the element at an index. -/
def eEraseIdx : EList → Nat → EList
  | .nil, _ => .nil
  | .cons _ xs, 0 => xs
  | .cons x xs, i + 1 => .cons x (eEraseIdx xs i)

/-- Concatenation of children arrays. -/
def eAppend : EList → EList → EList
  | .nil, ys => ys
  | .cons x xs, ys => .cons x (eAppend xs ys)

/-- First `i` elements of a children array. -/
def etakeE : EList → Nat → EList
  | _, 0 => .nil
  | .nil, _ => .nil
  | .cons x xs, i + 1 => .cons x (etakeE xs i)

/-- Children array without its first `i` elements. -/
def edropE : EList → Nat → EList
  | l, 0 => l
  | .nil, _ => .nil
  | .cons _ xs, i + 1 => edropE xs i

/-- Replacement of the element at an index by two elements. -/
def replaceWithTwo : EList → Nat → ENode → ENode → EList
  | .nil, _, _, _ => .nil
  | .cons _ xs, 0, a, b => .cons a (.cons b xs)
  | .cons x xs, i + 1, a, b => .cons x (replaceWithTwo xs i a b)

/-- Navigation to the sibling list holding the node at `path` and editing
it there with `f` (which receives the list and the node's index). -/
def editSib : EList → List Nat → (EList → Nat → EList) → EList
  | l, [], _ => l
  | l, [i], f => f l i
  | l, i :: rest, f =>
    emodifyIdx l i fun n =>
      match n with
      | .elem a b c d kids => .elem a b c d (editSib kids rest f)
      | t => t

/-- Node at a path (`none` for the empty path, which denotes the editor
itself, and for invalid paths). -/
def getNodeE : EList → List Nat → Option ENode
  | _, [] => none
  | l, [i] => egetIdx l i
  | l, i :: rest =>
    match egetIdx l i with
    | some (.elem _ _ _ _ kids) => getNodeE kids rest
    | _ => none

/-- Type of the parent of the node at `path` (`none` when the parent is
the editor root, whose `type` is `undefined`). -/
def parentTypeAt (t : EList) (p : List Nat) : Option String :=
  match p.dropLast with
  | [] => none
  | q => (getNodeE t q).bind etype

/-- `Transforms.setNodes`-style point update at a path.  Setting element
properties on a text leaf is left as the identity (the analysed flows
never do it). -/
def setAtE (t : EList) (p : List Nat) (f : ENode → ENode) : EList :=
  editSib t p fun l i => emodifyIdx l i f

/-- `Transforms.setNodes(editor, {type}, {at})`. -/
def setTypeAtE (t : EList) (p : List Nat) (ty : String) : EList :=
  setAtE t p fun n =>
    match n with
    | .elem id _ nm f k => .elem id ty nm f k
    | x => x

/-- `Transforms.setNodes(editor, {name}, {at})`. -/
def setNameAtE (t : EList) (p : List Nat) (nm : Option String) : EList :=
  setAtE t p fun n =>
    match n with
    | .elem id ty _ f k => .elem id ty nm f k
    | x => x

/-- `Transforms.setNodes(editor, {folded}, {at})`. -/
def setFoldedAtE (t : EList) (p : List Nat) (f : Bool) : EList :=
  setAtE t p fun n =>
    match n with
    | .elem id ty nm _ k => .elem id ty nm f k
    | x => x

/-- `Transforms.removeNodes(editor, {at})`. -/
def removeAtE (t : EList) (p : List Nat) : EList :=
  editSib t p eEraseIdx

/-- `Transforms.wrapNodes(editor, {type}, {at})`: the node is replaced by
a fresh wrapper element of the given type containing it (the wrapper has
no id, name or folded flag). -/
def wrapAtE (t : EList) (p : List Nat) (ty : String) : EList :=
  setAtE t p fun n => .elem "" ty none false (.cons n .nil)

/-- Splice of the children of the element at an index in place of the
element (`Transforms.unwrapNodes` at that node). -/
def spliceAt : EList → Nat → EList
  | .nil, _ => .nil
  | .cons x xs, 0 =>
    match x with
    | .elem _ _ _ _ kids => eAppend kids xs
    | t => .cons t xs
  | .cons x xs, i + 1 => .cons x (spliceAt xs i)

/-- `Transforms.unwrapNodes(editor, {at})`. -/
def unwrapAtE (t : EList) (p : List Nat) : EList :=
  editSib t p spliceAt

/-- Merge of two consecutive nodes (`Transforms.mergeNodes` semantics:
for elements the previous node keeps its properties and receives the
children of the merged node; adjacent texts concatenate). -/
def mergeNodesE : ENode → ENode → ENode
  | .elem id ty nm f ka, .elem _ _ _ _ kb => .elem id ty nm f (eAppend ka kb)
  | .text s, .text t => .text (s ++ t)
  | a, _ => a

/-- Replacement of the nodes at indices `j` and `j+1` by their merge. -/
def mergePair : EList → Nat → EList
  | .cons a (.cons b rest), 0 => .cons (mergeNodesE a b) rest
  | l, 0 => l
  | .nil, _ => .nil
  | .cons x xs, j + 1 => .cons x (mergePair xs j)

/-- Insertion of a node right after index `pi + 1` (helper for the
middle case of `liftLocal`). -/
def einsertAfterTwo : EList → Nat → ENode → EList
  | .nil, _, _ => .nil
  | .cons x (.cons y ys), 0, n => .cons x (.cons y (.cons n ys))
  | .cons x xs, 0, _ => .cons x xs
  | .cons x xs, i + 1, n => .cons x (einsertAfterTwo xs i n)

/-- Local part of `Transforms.liftNodes`: lifts the child at index `ci` of
the parent at index `pi` one level up, splitting the parent in two when
the child sits in the middle (Slate's documented behaviour). -/
def liftLocal (l : EList) (pi ci : Nat) : EList :=
  match egetIdx l pi with
  | some (.elem id ty nm f kids) =>
    match egetIdx kids ci with
    | none => l
    | some node =>
      if elen kids = 1 then emodifyIdx l pi fun _ => node
      else if ci = 0 then replaceWithTwo l pi node (.elem id ty nm f (eEraseIdx kids 0))
      else if ci = elen kids - 1 then
        replaceWithTwo l pi (.elem id ty nm f (eEraseIdx kids ci)) node
      else
        replaceWithTwo l pi (.elem id ty nm f (etakeE kids ci)) node
          |> fun l2 => einsertAfterTwo l2 pi (.elem id ty nm f (edropE kids (ci + 1)))
  | _ => l

/-- `Transforms.liftNodes(editor, {at})`.  Lifting a top-level node is
refused by Slate and never attempted by the source; it is the identity
here. -/
def liftAtE : EList → List Nat → EList
  | l, [] => l
  | l, [_] => l
  | l, [pi, ci] => liftLocal l pi ci
  | l, i :: rest =>
    emodifyIdx l i fun n =>
      match n with
      | .elem a b c d kids => .elem a b c d (liftAtE kids rest)
      | t => t

mutual
/-- `Node.string`: concatenated text content of a node. -/
def nodeStringE : ENode → String
  | .text s => s
  | .elem _ _ _ _ kids => listStringE kids
/-- `Node.string` over a children array. -/
def listStringE : EList → String
  | .nil => ""
  | .cons x xs => nodeStringE x ++ listStringE xs
end

mutual
/-- Paths of a node and its descendants, in document order. -/
def pathsN (pre : List Nat) : ENode → List (List Nat)
  | .text _ => [pre]
  | .elem _ _ _ _ kids => pre :: pathsL pre 0 kids
/-- Paths of a forest starting at sibling index `i`, in document order. -/
def pathsL (pre : List Nat) (i : Nat) : EList → List (List Nat)
  | .nil => []
  | .cons x xs => pathsN (pre ++ [i]) x ++ pathsL pre (i + 1) xs
end

/-- All node paths of the tree, in document order. -/
def allPathsE (t : EList) : List (List Nat) :=
  pathsL [] 0 t

/-! ## Identity Enforcer (`withIDs`) -/

mutual
/-- Identity pass over one node (source `withIDs`): walking in document
order, a node whose id is missing (falsy) or already seen receives a
freshly generated id; otherwise its id is recorded as seen.  `gen` is the
identifier generator `nanoid` and `ctr` its call counter; `seen` is the
set of identifiers seen so far. -/
def idPassN (gen : Nat → String) (seen : List String) (ctr : Nat) :
    ENode → ENode × List String × Nat
  | .text s => (.text s, seen, ctr)
  | .elem id ty nm f kids =>
    if id = "" || seen.contains id then
      let nid := gen ctr
      let r := idPassL gen (nid :: seen) (ctr + 1) kids
      (.elem nid ty nm f r.1, r.2.1, r.2.2)
    else
      let r := idPassL gen (id :: seen) ctr kids
      (.elem id ty nm f r.1, r.2.1, r.2.2)
/-- Identity pass over a forest, threading the seen set and counter in
document order. -/
def idPassL (gen : Nat → String) (seen : List String) (ctr : Nat) :
    EList → EList × List String × Nat
  | .nil => (.nil, seen, ctr)
  | .cons x xs =>
    let r1 := idPassN gen seen ctr x
    let r2 := idPassL gen r1.2.1 r1.2.2 xs
    (.cons r1.1 r2.1, r2.2)
end

mutual
/-- Ids of all element nodes of a node, in document order. -/
def cIdsN : ENode → List String
  | .text _ => []
  | .elem id _ _ _ kids => id :: cIdsL kids
/-- Ids of all element nodes of a forest, in document order. -/
def cIdsL : EList → List String
  | .nil => []
  | .cons x xs => cIdsN x ++ cIdsL xs
end

/-! ## Structural Normalizer (`withFixNesting`) -/

/-- Type of the first child (`block.children[0].type`; a text first child
has no `type`, giving `undefined`). -/
def eheadType : EList → Option String
  | .nil => none
  | .cons x _ => etype x

/-- Source `doFold(editor, node, path, false)` on the node at an index:
the folded flag ends false (the guard only skips the write when it is
already false). -/
def unfoldIdx (l : EList) (i : Nat) : EList :=
  emodifyIdx l i fun n =>
    match n with
    | .elem a b c _ k => .elem a b c false k
    | t => t

/-- Source `checkBlockHeader`, localized to the sibling list holding the
container: given the siblings, the container's index and the expected
header type, returns the updated sibling list together with the JS return
value (`true` = clean, continue with further checks; `false` = a repair
was issued, stop).  An empty container is removed; a correct header
leaves everything unchanged; otherwise, when the immediately preceding
sibling has the same container type, both containers are unfolded and the
container is merged into it (`doFold` twice, then `Transforms.mergeNodes`,
so the merged container keeps the previous container's properties with
`folded` cleared); in every other case nothing changes.  A text node in
container position would make JavaScript throw reading `children.length`
and is returned unchanged. -/
def checkBlockHeaderL (sibs : EList) (i : Nat) (ty : String) : EList × Bool :=
  match egetIdx sibs i with
  | none => (sibs, true)
  | some (.text _) => (sibs, true)
  | some (.elem _ bty _ _ kids) =>
    match kids with
    | .nil => (eEraseIdx sibs i, false)
    | _ =>
      if eheadType kids == some ty then (sibs, true)
      else
        match i with
        | 0 => (sibs, true)
        | j + 1 =>
          match egetIdx sibs j with
          | none => (sibs, true)
          | some prev =>
            if etype prev ≠ some bty then (sibs, true)
            else (mergePair (unfoldIdx (unfoldIdx sibs j) (j + 1)) j, false)

/-- Header-node rule of `withFixNesting.normalizeNode` (`hpart`/`hscene`):
`checkParent` (wrap into the matching container when the parent is of a
different type), then `checkIsFirst` (wrap-and-lift a header that is not
the first child), then `updateParentName` (copy the header text into the
parent's `name`).  Returns `some` of the changed tree, or `none` when all
three checks pass. -/
def headerStep (t : EList) (p : List Nat) (container : String) : Option EList :=
  if parentTypeAt t p ≠ some container then some (wrapAtE t p container)
  else
    match p.getLast? with
    | none => none
    | some idx =>
      if idx ≠ 0 then some (liftAtE (wrapAtE t p container) p)
      else
        match getNodeE t p with
        | none => none
        | some node =>
          match p.dropLast with
          | [] => none
          | q =>
            match getNodeE t q with
            | some parent =>
              let txt := nodeStringE node
              if ename parent == some txt then none else some (setNameAtE t q (some txt))
            | none => none

/-- Second-child check of the `part` rule (source `checkFirstHeader`
applied to `node.children[1]`): reads the type of the second child's own
first child and retypes that first child to `hscene` when it differs.
The cases where JavaScript would throw (second child with no children, or
a text second child) are left unchanged. -/
def checkFirstHeaderL (t : EList) (i : Nat) (kids : EList) : Option EList :=
  match egetIdx kids 1 with
  | some (.elem _ _ _ _ (.cons c0 _)) =>
    if etype c0 == some "hscene" then none
    else some (setTypeAtE t [i, 1, 0] "hscene")
  | _ => none

/-- Rule of `withFixNesting.normalizeNode` for non-root paths: text nodes
pass through; header nodes run `headerStep`; a `part` nested below depth 1
is lifted, a depth-1 `part` runs `checkBlockHeader` with `hpart` and then
the second-child check; a `scene` is wrapped into a `part` at depth 1,
lifted below depth 2, and runs `checkBlockHeader` with `hscene` at
depth 2; every other node is wrapped into a `scene` when its parent is
not one. -/
def nonRootStep (t : EList) (p : List Nat) : Option EList :=
  match getNodeE t p with
  | none => none
  | some (.text _) => none
  | some (.elem _ ty _ _ kids) =>
    match ty with
    | "hpart" => headerStep t p "part"
    | "hscene" => headerStep t p "scene"
    | "part" =>
      match p with
      | [i] =>
        let r := checkBlockHeaderL t i "hpart"
        if r.2 then
          if elen kids > 1 then checkFirstHeaderL t i kids else none
        else some r.1
      | [] => none
      | _ => some (liftAtE t p)
    | "scene" =>
      match p with
      | [] => none
      | [i] => some (wrapAtE t [i] "part")
      | [i, j] =>
        match egetIdx t i with
        | some (.elem a b c d skids) =>
          let r := checkBlockHeaderL skids j "hscene"
          if r.2 then none
          else some (emodifyIdx t i fun _ => .elem a b c d r.1)
        | _ => none
      | _ => some (liftAtE t p)
    | _ =>
      if parentTypeAt t p == some "scene" then none
      else some (wrapAtE t p "scene")

/-- Root rule: the Identity Enforcer runs first (source `withIDs`
normalizes ids exactly when the path is the editor root), then the root
rule of `withFixNesting`: when the node at `[0,0]` is not an `hpart`, a
`scene` there is unwrapped and the node now at `[0,0]` is retyped to
`hpart`.  Reading `[0,0]` from a tree with no such node would throw in
JavaScript and is modelled as performing nothing further.  Returns `some`
of (tree, generator counter) when anything changed. -/
def rootStep (gen : Nat → String) (ctr : Nat) (t : EList) : Option (EList × Nat) :=
  let r := idPassL gen [] ctr t
  let t1 := r.1
  let ctr1 := r.2.2
  match getNodeE t1 [0, 0] with
  | none => if t1 = t then none else some (t1, ctr1)
  | some first =>
    if etype first == some "hpart" then
      if t1 = t then none else some (t1, ctr1)
    else
      let t2 := if etype first == some "scene" then unwrapAtE t1 [0, 0] else t1
      some (setTypeAtE t2 [0, 0] "hpart", ctr1)

/-- One invocation of the composed `normalizeNode` chain
(`withIDs` over `withFixNesting` over the built-in rules, which perform
nothing on the trees arising here) on the entry at `p`. -/
def normalizeEntry (gen : Nat → String) (ctr : Nat) (t : EList) (p : List Nat) :
    Option (EList × Nat) :=
  match p with
  | [] => rootStep gen ctr t
  | _ => (nonRootStep t p).map fun t2 => (t2, ctr)

/-- First entry of the worklist on which normalization changes the tree. -/
def firstChange (gen : Nat → String) (ctr : Nat) (t : EList) :
    List (List Nat) → Option (EList × Nat)
  | [] => none
  | p :: rest =>
    match normalizeEntry gen ctr t p with
    | some r => some r
    | none => firstChange gen ctr t rest

/-- Worklist of one full pass: every path of the tree plus the editor
root, processed bottom-up (reverse document order, the root last), the
order in which the host substrate pops dirty paths. -/
def sweepPaths (t : EList) : List (List Nat) :=
  (([] : List Nat) :: allPathsE t).reverse

/-- Normalization run to its fixed point: repeatedly apply the first
applicable repair until a pass changes nothing.  `fuel` bounds the number
of repairs; `none` means the bound was exhausted before the fixed point. -/
def normalizeFix (gen : Nat → String) : Nat → Nat → EList → Option EList
  | 0, _, _ => none
  | fuel + 1, ctr, t =>
    match firstChange gen ctr t (sweepPaths t) with
    | none => some t
    | some r => normalizeFix gen fuel r.2 r.1

mutual
/-- Shape of a node with generated ids erased (the claims' tree literals
carry no ids). -/
def eraseIdsN : ENode → ENode
  | .text s => .text s
  | .elem _ ty nm f kids => .elem "" ty nm f (eraseIdsL kids)
/-- Shape of a forest with ids erased. -/
def eraseIdsL : EList → EList
  | .nil => .nil
  | .cons x xs => .cons (eraseIdsN x) (eraseIdsL xs)
end

/-! ## Editor operations, Fold-Protection Guard and Markup Shortcut
Translator -/

/-- Collapsed-or-not selection: the path of the focused leaf, the caret
offset inside it, and whether the range is collapsed (an expanded range
is only ever passed through to the underlying operation by the analysed
interceptors, so its second point is not modelled). -/
structure MSel where
  path : List Nat
  offset : Nat
  collapsed : Bool
  deriving DecidableEq

/-- Editor state seen by the intercepted operations. -/
structure MState where
  tree : EList
  sel : Option MSel
  deriving DecidableEq

/-- The four content-mutating primitive operations of the underlying
editing substrate that the guards intercept. -/
structure EditorOps where
  insertBreak : MState → MState
  insertText : String → MState → MState
  deleteBackward : MState → MState
  deleteForward : MState → MState

/-- Proper ancestor paths of a path, deepest first (the editor root `[]`
is not an element and never matches). -/
def upPaths (p : List Nat) : List (List Nat) :=
  ((List.range p.length).drop 1).reverse.map fun k => p.take k

/-- Truthiness of the folded flag of the node at a path. -/
def foldedAt (t : EList) (q : List Nat) : Bool :=
  match getNodeE t q with
  | some (.elem _ _ _ true _) => true
  | _ => false

/-- `Editor.above(editor, {match: n => Element.isElement(n) && n.folded})`:
the nearest folded ancestor of the selection. -/
def nearestFolded (t : EList) (p : List Nat) : Option (List Nat) :=
  (upPaths p).find? fun q => foldedAt t q

/-- Source `unfoldSelection`: clears the folded flag of the nearest folded
ancestor (via `doFold`, whose guard is vacuous here because the found
node's flag is true) and reports whether one was found. -/
def unfoldSel (t : EList) (p : List Nat) : Bool × EList :=
  match nearestFolded t p with
  | none => (false, t)
  | some q => (true, setFoldedAtE t q false)

/-- Source `withProtectFolds`: the guarded operations.  `insertBreak` is
swallowed when an ancestor was unfolded; the other three always delegate
after unfolding.  With no selection, JavaScript would throw while
resolving the ancestor; the analysed claims always supply one. -/
def protectFolds (inner : EditorOps) : EditorOps where
  insertBreak s :=
    match s.sel with
    | none => inner.insertBreak s
    | some sel =>
      let r := unfoldSel s.tree sel.path
      if r.1 then { s with tree := r.2 } else inner.insertBreak s
  insertText txt s :=
    match s.sel with
    | none => inner.insertText txt s
    | some sel => inner.insertText txt { s with tree := (unfoldSel s.tree sel.path).2 }
  deleteBackward s :=
    match s.sel with
    | none => inner.deleteBackward s
    | some sel => inner.deleteBackward { s with tree := (unfoldSel s.tree sel.path).2 }
  deleteForward s :=
    match s.sel with
    | none => inner.deleteForward s
    | some sel => inner.deleteForward { s with tree := (unfoldSel s.tree sel.path).2 }

/-- First `n` characters of a string (JS string offsets). -/
def strTake (s : String) (n : Nat) : String :=
  String.mk (s.data.take n)

/-- String without its first `n` characters. -/
def strDrop (s : String) (n : Nat) : String :=
  String.mk (s.data.drop n)

/-- Markup trigger sequences (source `SHORTCUTS`). -/
def SHORTCUTS : List (String × String) :=
  [("** ", "hpart"), ("## ", "hscene"), (">> ", "synopsis"), ("// ", "comment"), ("!! ", "missing")]

/-- Successor styles on line break (source `STYLEAFTER`). -/
def STYLEAFTER : List (String × String) :=
  [("hpart", "hscene"), ("hscene", "p"), ("synopsis", "p"), ("missing", "p")]

/-- Styles reset to plain paragraph on a break in an empty block (source
`RESETEMPTY`). -/
def RESETEMPTY : List String :=
  ["synopsis", "comment", "missing"]

/-- Association lookup on a table of string pairs (`key in TABLE` plus
`TABLE[key]`). -/
def lookupS : List (String × String) → String → Option String
  | [], _ => none
  | (k, v) :: rest, key => if k = key then some v else lookupS rest key

/-- `Editor.above(editor, {match: n => Editor.isBlock(editor, n)})` seen
from a leaf: the leaf's parent element and its path (none when the leaf
hangs from the root, where JavaScript would throw destructuring). -/
def blockAt (t : EList) (p : List Nat) : Option (List Nat × ENode) :=
  match p.dropLast with
  | [] => none
  | q =>
    match getNodeE t q with
    | some (.elem a b c d e) => some (q, .elem a b c d e)
    | _ => none

/-- Text of the caret leaf up to the caret (`Editor.string` over the
final leaf of the start-of-block-to-caret range). -/
def leafTake : ENode → Nat → String
  | .text s, off => strTake s off
  | n, off => strTake (nodeStringE n) off

/-- `Editor.string(editor, range)` for the range from the start of the
block to the caret at child `ci`, offset `off`. -/
def textsBefore : EList → Nat → Nat → String
  | .nil, _, _ => ""
  | .cons x _, 0, off => leafTake x off
  | .cons x xs, ci + 1, off => nodeStringE x ++ textsBefore xs ci off

/-- `Transforms.delete` of the start-of-block-to-caret range: the leaves
before the caret leaf disappear and the caret leaf loses its first `off`
characters. -/
def deleteBefore : EList → Nat → Nat → EList
  | .nil, _, _ => .nil
  | .cons x xs, 0, off =>
    .cons (match x with | .text s => .text (strDrop s off) | n => n) xs
  | .cons _ xs, ci + 1, off => deleteBefore xs ci off

/-- Source `withMarkup` `insertText` interceptor: with a collapsed
selection, when the text from the block start to the caret followed by
the inserted text is a trigger sequence, the matched text is deleted and
the block retyped instead of inserting; otherwise the insertion is
delegated. -/
def markupInsertText (inner : EditorOps) (txt : String) (st : MState) : MState :=
  match st.sel with
  | none => inner.insertText txt st
  | some sel =>
    if sel.collapsed = false then inner.insertText txt st
    else
      match blockAt st.tree sel.path with
      | none => inner.insertText txt st
      | some (_, .text _) => inner.insertText txt st
      | some (bp, .elem _ _ _ _ kids) =>
        let ci := (sel.path.getLast?).getD 0
        let key := textsBefore kids ci sel.offset ++ txt
        match lookupS SHORTCUTS key with
        | some ty =>
          { tree :=
              setAtE st.tree bp fun n =>
                match n with
                | .elem id _ nm f ks => .elem id ty nm f (deleteBefore ks ci sel.offset)
                | x => x,
            sel := some { path := bp ++ [0], offset := 0, collapsed := true } }
        | none => inner.insertText txt st

/-- Split of a children array at child `ci`, offset `off`
(`Transforms.splitNodes` with `always: true` at a collapsed caret). -/
def splitKids : EList → Nat → Nat → EList × EList
  | .nil, _, _ => (.nil, .nil)
  | .cons x xs, 0, off =>
    (.cons (match x with | .text s => .text (strTake s off) | n => n) .nil,
     .cons (match x with | .text s => .text (strDrop s off) | n => n) xs)
  | .cons x xs, ci + 1, off =>
    let r := splitKids xs ci off
    (.cons x r.1, r.2)

/-- Path of the next sibling. -/
def incLast (p : List Nat) : List Nat :=
  p.dropLast ++ [(p.getLast?).getD 0 + 1]

/-- Source `withMarkup` `insertBreak` interceptor: an empty block of a
reset-on-empty type is retyped to `p` without splitting; a block whose
type has a successor style is split in two with the second half retyped
to the successor (the split copies the block's other properties);
otherwise the break is delegated. -/
def markupInsertBreak (inner : EditorOps) (st : MState) : MState :=
  match st.sel with
  | none => inner.insertBreak st
  | some sel =>
    if sel.collapsed = false then inner.insertBreak st
    else
      match blockAt st.tree sel.path with
      | none => inner.insertBreak st
      | some (_, .text _) => inner.insertBreak st
      | some (bp, .elem id ty nm f kids) =>
        if RESETEMPTY.contains ty && listStringE kids == "" then
          { st with tree := setTypeAtE st.tree bp "p" }
        else
          match lookupS STYLEAFTER ty with
          | some ty2 =>
            let ci := (sel.path.getLast?).getD 0
            let halves := splitKids kids ci sel.offset
            { tree :=
                editSib st.tree bp fun l i =>
                  replaceWithTwo l i (.elem id ty nm f halves.1) (.elem id ty2 nm f halves.2),
              sel := some { path := incLast bp ++ [0], offset := 0, collapsed := true } }
          | none => inner.insertBreak st

/-- Underlying operations that leave the state unchanged, used to
instantiate concrete scenarios. -/
def innerNop : EditorOps where
  insertBreak s := s
  insertText _ s := s
  deleteBackward s := s
  deleteForward s := s

/-! ## Statement helpers and concrete inputs -/

deriving instance DecidableEq for Except

/-- Element test on persisted nodes. -/
def isElemJ : JNode → Bool
  | .elem _ _ _ _ _ _ => true
  | .text _ => false

/-- Children of a persisted node (a text leaf has none). -/
def jkids : JNode → JList
  | .elem _ _ _ _ _ kids => kids
  | .text _ => .nil

/-- Text of the first child of a persisted node, as read by the
paragraph branch of `checkClean` (`elem.children[0].text`): `none` when
there is no first child (the reading would throw), `some (jtext c)`
otherwise. -/
def jfirstText (n : JNode) : Option (Option String) :=
  ((jchildren n).bind jhead).map jtext

mutual
/-- Literal text content of a persisted node (all text leaves
concatenated). -/
def jstringN : JNode → String
  | .text s => s
  | .elem _ _ _ _ _ kids => jstringL kids
/-- Literal text content of a persisted forest. -/
def jstringL : JList → String
  | .nil => ""
  | .cons x xs => jstringN x ++ jstringL xs
end

/-- Invariant of the Identity Enforcer pass: every identifier seen so far
either already occurred in the original tree (the set `A`) or was
produced by one of the generator calls made so far. -/
def IdInv (A : List String) (gen : Nat → String) (seen : List String) (ctr : Nat) : Prop :=
  ∀ x ∈ seen, x ∈ A ∨ ∃ j, j < ctr ∧ x = gen j

/-- Last index of a path. -/
def lastIdx (p : List Nat) : Nat :=
  (p.getLast?).getD 0

/-- Sibling list containing the node at a path. -/
def sibsAt (t : EList) (p : List Nat) : Option EList :=
  match p.dropLast with
  | [] => some t
  | q =>
    match getNodeE t q with
    | some (.elem _ _ _ _ kids) => some kids
    | _ => none

/-- Deterministic stand-in for the identifier generator used to run the
model on concrete inputs: the (k+1)-fold repetition of `x`. -/
def genX : Nat → String := fun k => String.mk (List.replicate (k + 1) 'x')

/-- Stand-in word counter for concrete runs. -/
def wc0 : JNode → Nat := fun _ => 0

/-- Well-formed one-part, one-scene, one-paragraph persisted section. -/
def okSection : Section :=
  { parts := .cons (.elem (some "P1") "part" (some "N") none (some 5)
      (.cons (.elem (some "S1") "scene" (some "M") none (some 4)
        (.cons (.elem (some "B1") "p" none none (some 3) (.cons (.text "x") .nil)) .nil)) .nil)) .nil,
    words := some 5 }

/-- Persisted section whose only paragraph is a legacy `br` node. -/
def brSection : Section :=
  { parts := .cons (.elem (some "P1") "part" (some "N") none (some 5)
      (.cons (.elem (some "S1") "scene" (some "M") none (some 4)
        (.cons (.elem (some "B1") "br" none none (some 3) (.cons (.text "x") .nil)) .nil)) .nil)) .nil,
    words := some 5 }

/-- Editable paragraph with two text runs `a`, `b`. -/
def c9elem : JNode :=
  .elem (some "i") "p" none none none (.cons (.text "a") (.cons (.text "b") .nil))

/-- Previous persisted paragraph with the same id and first run but a
different second text run `c`. -/
def c9orig : JNode :=
  .elem (some "i") "p" none none (some 7) (.cons (.text "a") (.cons (.text "c") .nil))

/-- Nonempty editable buffer used to exercise the missing-section path of
`updateSection`. -/
def c10buffer : JList :=
  .cons (.elem (some "q") "part" none none none .nil) .nil

/-- Input tree of the normalization scenario: one top-level `scene`
holding an `hscene` header `Old` and a paragraph `hi`, no enclosing
`part`. -/
def c2input : EList :=
  .cons (.elem "" "scene" none false
    (.cons (.elem "" "hscene" none false (.cons (.text "Old") .nil))
      (.cons (.elem "" "p" none false (.cons (.text "hi") .nil)) .nil))) .nil

/-- Tree the claim expects from the scenario (ids erased): a part named
`Old` containing both headers with text `Old` and the preserved
paragraph `hi`. -/
def c2claimed : EList :=
  .cons (.elem "" "part" (some "Old") false
    (.cons (.elem "" "hpart" none false (.cons (.text "Old") .nil))
      (.cons (.elem "" "scene" (some "Old") false
        (.cons (.elem "" "hscene" none false (.cons (.text "Old") .nil))
          (.cons (.elem "" "p" none false (.cons (.text "hi") .nil)) .nil))) .nil))) .nil

/-- Tree the model actually reaches (ids erased): the original header
becomes the part header `Old`, while the paragraph `hi` is converted
into the header of the freshly wrapped scene, which is then named `hi`;
no paragraph survives. -/
def c2actualShape : EList :=
  .cons (.elem "" "part" (some "Old") false
    (.cons (.elem "" "hpart" none false (.cons (.text "Old") .nil))
      (.cons (.elem "" "scene" (some "hi") false
        (.cons (.elem "" "hscene" none false (.cons (.text "hi") .nil)) .nil)) .nil))) .nil

/-- Depth-1 part whose second child is a `scene` holding only a paragraph
(no `hscene` header). -/
def c8tree : EList :=
  .cons (.elem "P" "part" (some "T") false
    (.cons (.elem "H" "hpart" none false (.cons (.text "T") .nil))
      (.cons (.elem "S" "scene" (some "T") false
        (.cons (.elem "Q" "p" none false (.cons (.text "x") .nil)) .nil)) .nil))) .nil

/-- Result of normalizing the part of `c8tree`: the second child is still
a `scene`; its first child was retyped to `hscene`. -/
def c8result : EList :=
  .cons (.elem "P" "part" (some "T") false
    (.cons (.elem "H" "hpart" none false (.cons (.text "T") .nil))
      (.cons (.elem "S" "scene" (some "T") false
        (.cons (.elem "Q" "hscene" none false (.cons (.text "x") .nil)) .nil)) .nil))) .nil

/-- Editor state with the caret in an empty `synopsis` block. -/
def c7reset : MState :=
  { tree := .cons (.elem "b1" "synopsis" none false (.cons (.text "") .nil)) .nil,
    sel := some { path := [0, 0], offset := 0, collapsed := true } }

/-- Editor state with the caret at the end of an `hscene` block holding
`Ch1`. -/
def c7scenario : MState :=
  { tree := .cons (.elem "h1" "hscene" none false (.cons (.text "Ch1") .nil)) .nil,
    sel := some { path := [0, 0], offset := 3, collapsed := true } }

/-- Editor state whose selection sits inside a folded part. -/
def c5folded : MState :=
  { tree := .cons (.elem "pa" "part" (some "N") true
      (.cons (.elem "ha" "hpart" none false (.cons (.text "N") .nil)) .nil)) .nil,
    sel := some { path := [0, 0, 0], offset := 0, collapsed := true } }

/-- Editor state for the markup scenario: an empty paragraph into which
`**` has been typed, the caret after it. -/
def c6state : MState :=
  { tree := .cons (.elem "pb" "p" none false (.cons (.text "**") .nil)) .nil,
    sel := some { path := [0, 0], offset := 2, collapsed := true } }

/-- Sibling list for the header-mismatch witness: two scenes, the second
folded and starting with a paragraph instead of a header. -/
def c4sibs : EList :=
  .cons (.elem "s1" "scene" (some "A") false
      (.cons (.elem "h1" "hscene" none false (.cons (.text "A") .nil)) .nil))
    (.cons (.elem "s2" "scene" (some "B") true
      (.cons (.elem "q2" "p" none false (.cons (.text "y") .nil)) .nil)) .nil)

/-- Editable tree with a duplicated id, used to exercise the Identity
Enforcer. -/
def c3tree : EList :=
  .cons (.elem "a" "p" none false .nil) (.cons (.elem "a" "p" none false .nil) .nil)

/-! ## Helper lemmas -/

theorem egetIdx_emodifyIdx : ∀ (l : EList) (i : Nat) (g : ENode → ENode),
    egetIdx (emodifyIdx l i g) i = (egetIdx l i).map g
  | .nil, _, _ => by simp [egetIdx, emodifyIdx]
  | .cons _ _, 0, _ => by simp [egetIdx, emodifyIdx]
  | .cons _ xs, i + 1, g => by simpa [egetIdx, emodifyIdx] using egetIdx_emodifyIdx xs i g

theorem getNodeE_setAtE_self : ∀ (p : List Nat) (t : EList) (f : ENode → ENode),
    getNodeE (setAtE t p f) p = (getNodeE t p).map f
  | [], t, f => by simp [setAtE, editSib, getNodeE]
  | [i], t, f => by simp [setAtE, editSib, getNodeE, egetIdx_emodifyIdx]
  | i :: j :: rest2, t, f => by
    show getNodeE (emodifyIdx t i _) (i :: j :: rest2) = _
    rw [show ∀ l, getNodeE l (i :: j :: rest2) =
      (match egetIdx l i with
        | some (.elem _ _ _ _ kids) => getNodeE kids (j :: rest2)
        | _ => none) from fun _ => rfl]
    rw [show getNodeE t (i :: j :: rest2) =
      (match egetIdx t i with
        | some (.elem _ _ _ _ kids) => getNodeE kids (j :: rest2)
        | _ => none) from rfl]
    rw [egetIdx_emodifyIdx]
    cases hx : egetIdx t i with
    | none => simp
    | some n =>
      cases n with
      | text s => simp
      | elem a b c d kids => simpa using getNodeE_setAtE_self (j :: rest2) kids f

theorem egetIdx_emodifyIdx_ne : ∀ (l : EList) (i k : Nat) (g : ENode → ENode), k ≠ i →
    egetIdx (emodifyIdx l i g) k = egetIdx l k
  | .nil, _, _, _, _ => by simp [emodifyIdx]
  | .cons x xs, 0, 0, g, h => by exact absurd rfl h
  | .cons x xs, 0, k + 1, g, h => by simp [emodifyIdx, egetIdx]
  | .cons x xs, i + 1, 0, g, h => by simp [emodifyIdx, egetIdx]
  | .cons x xs, i + 1, k + 1, g, h => by
    simpa [emodifyIdx, egetIdx] using egetIdx_emodifyIdx_ne xs i k g (by omega)

theorem elen_emodifyIdx : ∀ (l : EList) (i : Nat) (g : ENode → ENode),
    elen (emodifyIdx l i g) = elen l
  | .nil, _, _ => rfl
  | .cons x xs, 0, g => rfl
  | .cons x xs, i + 1, g => by simpa [emodifyIdx, elen] using elen_emodifyIdx xs i g

theorem elen_eEraseIdx : ∀ (l : EList) (i : Nat) (n : ENode), egetIdx l i = some n →
    elen (eEraseIdx l i) + 1 = elen l
  | .nil, i, n, h => by simp [egetIdx] at h
  | .cons x xs, 0, n, h => by simp [eEraseIdx, elen]
  | .cons x xs, i + 1, n, h => by
    simpa [eEraseIdx, elen] using elen_eEraseIdx xs i n (by simpa [egetIdx] using h)

theorem mergePair_get_self : ∀ (l : EList) (j : Nat) (a b : ENode),
    egetIdx l j = some a → egetIdx l (j + 1) = some b →
    egetIdx (mergePair l j) j = some (mergeNodesE a b)
  | .nil, j, a, b, ha, hb => by simp [egetIdx] at ha
  | .cons x xs, 0, a, b, ha, hb => by
    cases xs with
    | nil => simp [egetIdx] at hb
    | cons y ys =>
      simp [egetIdx] at ha hb
      subst ha
      subst hb
      simp [mergePair, egetIdx]
  | .cons x xs, j + 1, a, b, ha, hb => by
    simpa [mergePair, egetIdx] using
      mergePair_get_self xs j a b (by simpa [egetIdx] using ha) (by simpa [egetIdx] using hb)

theorem mergePair_elen : ∀ (l : EList) (j : Nat) (a b : ENode),
    egetIdx l j = some a → egetIdx l (j + 1) = some b →
    elen (mergePair l j) + 1 = elen l
  | .nil, j, a, b, ha, hb => by simp [egetIdx] at ha
  | .cons x xs, 0, a, b, ha, hb => by
    cases xs with
    | nil => simp [egetIdx] at hb
    | cons y ys => simp [mergePair, elen]
  | .cons x xs, j + 1, a, b, ha, hb => by
    simpa [mergePair, elen] using
      mergePair_elen xs j a b (by simpa [egetIdx] using ha) (by simpa [egetIdx] using hb)

theorem mergePair_get_lt : ∀ (l : EList) (j k : Nat), k < j →
    egetIdx (mergePair l j) k = egetIdx l k
  | .nil, j, k, h => by cases j <;> rfl
  | .cons x xs, 0, k, h => by omega
  | .cons x xs, j + 1, 0, h => by simp [mergePair, egetIdx]
  | .cons x xs, j + 1, k + 1, h => by
    simpa [mergePair, egetIdx] using mergePair_get_lt xs j k (by omega)

theorem mergePair_get_gt : ∀ (l : EList) (j k : Nat), j < k →
    egetIdx (mergePair l j) k = egetIdx l (k + 1)
  | .nil, j, k, h => by cases j <;> rfl
  | .cons x xs, 0, k, h => by
    cases xs with
    | nil =>
      cases k with
      | zero => omega
      | succ m => simp [mergePair, egetIdx]
    | cons y ys =>
      cases k with
      | zero => omega
      | succ m => simp [mergePair, egetIdx]
  | .cons x xs, j + 1, 0, h => by omega
  | .cons x xs, j + 1, k + 1, h => by
    simpa [mergePair, egetIdx] using mergePair_get_gt xs j k (by omega)

/-! ## Claim C2 -/

/-- C2 counterexample: normalizing the top-level scene
`[scene [hscene Old, p hi]]` to its fixed point does not produce the tree
the claim states (in particular no scene named `Old`, no `hscene` with
text `Old` and no surviving paragraph `hi` exist in the result). -/
theorem C2_counterexample :
    (normalizeFix genX 40 0 c2input).map eraseIdsL ≠ some c2claimed := by decide

/-- C2 (amended): running normalization to its fixed point on the input
tree `{scene [hscene Old, p hi]}` with no enclosing part terminates and
produces (up to generated ids) the tree
`{part name Old [hpart Old, scene name hi [hscene hi]]}`: the original
scene header becomes the part header, while the paragraph `hi` is
converted into the header of the freshly wrapped scene and gives it its
name; the claimed tree with both headers `Old` and a preserved paragraph
is not reached. -/
theorem C2_normalization_scenario :
    (normalizeFix genX 40 0 c2input).map eraseIdsL = some c2actualShape := by decide

/-! ## Claim C8 -/

/-- C8 counterexample: normalizing the depth-1 part of `c8tree` (whose
second child is a `scene` starting with a paragraph) leaves the second
child's own type `scene` — it is not assigned type `hscene` — and instead
retypes the second child's first child from `p` to `hscene`. -/
theorem C8_counterexample :
    nonRootStep c8tree [0] = some c8result ∧
    (getNodeE c8result [0, 1]).bind etype = some "scene" ∧
    (getNodeE c8result [0, 1, 0]).bind etype = some "hscene" ∧
    (getNodeE c8tree [0, 1, 0]).bind etype = some "p" := by
  exact ⟨by decide, by decide, by decide, by decide⟩

/-! ## Claim C9 -/

/-- C9 (amended): for a paragraph-family editable node (type not `part`,
`scene` or `br`) with at least one child whose id is found in the lookup,
`checkClean` reuses the previous node exactly when the nodes are
identical or have the same id, the same type and the same text in their
FIRST child (`elem.children[0].text`); the rest of the paragraph text
does not participate in the decision. -/
theorem C9_paragraph_reuse (wc : JNode → Nat) (E : List (Option String × JNode))
    (eid : Option String) (ty : String) (nm : Option String) (fo : Option Bool)
    (w : Option Nat) (c1 : JNode) (krest : JList) (orig : JNode)
    (hty1 : ty ≠ "part") (hty2 : ty ≠ "scene") (hty3 : ty ≠ "br")
    (hlk : lookupA E eid = some orig) :
    checkClean wc (.elem eid ty nm fo w (.cons c1 krest)) (.map E) = .ok orig ↔
      (JNode.elem eid ty nm fo w (.cons c1 krest) = orig ∨
        (eid = jid orig ∧ some ty = jtype orig ∧ jfirstText orig = some (jtext c1))) := by
  have e1 : jid (JNode.elem eid ty nm fo w (.cons c1 krest)) = eid := rfl
  have e2 : jtype (JNode.elem eid ty nm fo w (.cons c1 krest)) = some ty := rfl
  by_cases heq : JNode.elem eid ty nm fo w (.cons c1 krest) = orig
  · subst heq
    simp [checkClean, e1, hlk]
  · by_cases hct : cmpType (.elem eid ty nm fo w (.cons c1 krest)) orig = true
    · have hid : jid orig = eid := by
        have h := hct
        simp [cmpType, e1, e2] at h
        exact h.1.symm
      have htyo : jtype orig = some ty := by
        have h := hct
        simp [cmpType, e1, e2] at h
        exact h.2.symm
      cases orig with
      | text s => simp [jtype] at htyo
      | elem oid oty onm oof ow okids =>
        have hoty : oty = ty := by simpa [jtype] using htyo
        subst hoty
        have hoid : oid = eid := by simpa [jid] using hid
        subst hoid
        cases okids with
        | nil =>
          simp [checkClean, e1, e2, hlk, heq, hct, hty1, hty2, hty3, jchildren, jhead,
            jfirstText, jid, jtype, Option.bind]
        | cons oc orest =>
          by_cases htx : jtext c1 = jtext oc
          · simp [checkClean, e1, e2, hlk, heq, hct, hty1, hty2, hty3, jchildren, jhead,
              jfirstText, jid, jtype, Option.bind, htx]
          · have hone : c1 ≠ oc := fun hh => htx (hh ▸ rfl)
            have hLf : checkClean wc (.elem oid oty nm fo w (.cons c1 krest)) (.map E) =
                .ok (rebuildElem wc (.elem oid oty nm fo w (.cons c1 krest))) := by
              simp [checkClean, e1, e2, hlk, heq, hct, hty1, hty2, hty3, jchildren, jhead, htx]
            rw [hLf]
            constructor
            · intro hh
              rw [Except.ok.injEq, rebuildElem] at hh
              exact absurd (by injection hh with h1 h2 h3 h4 h5 h6; injection h6) hone
            · rintro (hh | ⟨-, -, h3⟩)
              · exact absurd hh heq
              · exact absurd (by simpa [jfirstText, jchildren, jhead, Option.bind, jtext]
                  using h3.symm) htx
    · have hrne : rebuildElem wc (.elem eid ty nm fo w (.cons c1 krest)) ≠ orig := by
        intro hh
        apply hct
        rw [rebuildElem] at hh
        rw [← hh]
        simp [cmpType, jid, jtype]
      have hcf : ¬(eid = jid orig ∧ some ty = jtype orig ∧ jfirstText orig = some (jtext c1)) := by
        rintro ⟨h1, h2, h3⟩
        apply hct
        simp [cmpType, e1, e2, ← h1, ← h2]
      have hLf : checkClean wc (.elem eid ty nm fo w (.cons c1 krest)) (.map E) =
          .ok (rebuildElem wc (.elem eid ty nm fo w (.cons c1 krest))) := by
        simp [checkClean, e1, hlk, heq, hct]
      rw [hLf]
      constructor
      · intro hh
        rw [Except.ok.injEq] at hh
        exact absurd hh hrne
      · rintro (hh | hh)
        · exact absurd hh heq
        · exact absurd hh hcf

/-- C9 counterexample: the paragraph `c9elem` (text runs `a`,`b`) is
reused in place of `c9orig` (same id and type, text runs `a`,`c`)
although their literal text contents `ab` and `ac` differ: the decision
reads only the first text child. -/
theorem C9_counterexample :
    checkClean wc0 c9elem (.map [(some "i", c9orig)]) = .ok c9orig ∧
      jstringN c9elem ≠ jstringN c9orig := ⟨by decide, by decide⟩

/-- C9 witness: the reuse equivalence evaluated on the concrete paragraph
pair. -/
theorem C9_paragraph_reuse_witness :
    checkClean wc0 (.elem (some "i") "p" none none none
        (.cons (.text "a") (.cons (.text "b") .nil))) (.map [(some "i", c9orig)]) = .ok c9orig ↔
      (JNode.elem (some "i") "p" none none none
          (.cons (.text "a") (.cons (.text "b") .nil)) = c9orig ∨
        (some "i" = jid c9orig ∧ some "p" = jtype c9orig ∧
          jfirstText c9orig = some (jtext (.text "a")))) :=
  C9_paragraph_reuse wc0 [(some "i", c9orig)] (some "i") "p" none none none
    (.text "a") (.cons (.text "b") .nil) c9orig
    (by decide) (by decide) (by decide) (by decide)

/-! ## Claim C10 -/

/-- C10: committing any non-empty editable buffer with a missing previous
section fails with a runtime type error (the plain-object fallback lookup
has no `has` method, and `section.parts` would be read from `null`)
rather than building a fresh section. -/
theorem C10_null_section_error (wc : JNode → Nat) (buffer : JList) (h : buffer ≠ .nil) :
    ∃ e, updateSection wc buffer none = .error e := by
  cases buffer with
  | nil => exact absurd rfl h
  | cons b bs =>
    have hpart : ∃ e, edit2part wc .plainObject b = .error e := by
      cases b with
      | text s => exact ⟨"TypeError: cannot destructure children", rfl⟩
      | elem id ty nm f w kids =>
        cases h2 : jmapM (edit2scene wc .plainObject) (jtail kids) with
        | error e => exact ⟨e, by simp [edit2part, h2, Except.bind]⟩
        | ok v =>
          exact ⟨"TypeError: lookup.has is not a function",
            by simp [edit2part, h2, Except.bind, checkClean]⟩
    obtain ⟨e, he⟩ := hpart
    exact ⟨e, by simp [updateSection, jmapM, he, Except.bind]⟩

/-- C10 witness: the concrete one-part buffer with no previous section. -/
theorem C10_null_section_error_witness :
    ∃ e, updateSection wc0 c10buffer none = .error e :=
  C10_null_section_error wc0 c10buffer (by decide)

/-- C8 (amended): during normalization of a depth-1 `part` whose header
check passes and whose second child is an element with a first child of a
type other than `hscene`, the repair retypes that first child (path
`[i,1,0]`) to `hscene`, while the second child keeps its own type
unchanged. -/
theorem C8_second_child_header (t : EList) (i : Nat) (pid : String) (pnm : Option String)
    (pf : Bool) (hdr : ENode) (sid sty : String) (snm : Option String) (sf : Bool)
    (cid cty : String) (cnm : Option String) (cf : Bool) (ckids crest srest : EList)
    (hblock : egetIdx t i = some (.elem pid "part" pnm pf
      (.cons hdr (.cons (.elem sid sty snm sf (.cons (.elem cid cty cnm cf ckids) crest)) srest))))
    (hhdr : etype hdr = some "hpart")
    (hcty : cty ≠ "hscene") :
    nonRootStep t [i] = some (setTypeAtE t [i, 1, 0] "hscene") ∧
    getNodeE (setTypeAtE t [i, 1, 0] "hscene") [i, 1] =
      some (.elem sid sty snm sf (.cons (.elem cid "hscene" cnm cf ckids) crest)) := by
  constructor
  · have hget : getNodeE t [i] = some (.elem pid "part" pnm pf
        (.cons hdr (.cons (.elem sid sty snm sf
          (.cons (.elem cid cty cnm cf ckids) crest)) srest))) := by
      simpa [getNodeE] using hblock
    have hh : ∀ (x : EList), eheadType (.cons hdr x) = some "hpart" := by
      intro x
      simpa [eheadType] using hhdr
    have hc : etype (.elem cid cty cnm cf ckids) = some cty := rfl
    simp [nonRootStep, hget, checkBlockHeaderL, hblock, hh, elen,
      checkFirstHeaderL, egetIdx, hc, hcty]
  · show getNodeE (editSib t [i, 1, 0] _) [i, 1] = _
    simp only [editSib, setTypeAtE, setAtE]
    rw [show getNodeE (emodifyIdx t i _) [i, 1] =
      (match egetIdx (emodifyIdx t i _) i with
        | some (.elem _ _ _ _ kids) => getNodeE kids [1]
        | _ => none) from rfl]
    rw [egetIdx_emodifyIdx, hblock]
    simp [editSib, emodifyIdx, getNodeE, egetIdx]

/-- C8 witness: the repair applied to the concrete part of `c8tree`. -/
theorem C8_second_child_header_witness :
    nonRootStep c8tree [0] = some (setTypeAtE c8tree [0, 1, 0] "hscene") ∧
    getNodeE (setTypeAtE c8tree [0, 1, 0] "hscene") [0, 1] =
      some (.elem "S" "scene" (some "T") false
        (.cons (.elem "Q" "hscene" none false (.cons (.text "x") .nil)) .nil)) :=
  C8_second_child_header c8tree 0 "P" (some "T") false
    (.elem "H" "hpart" none false (.cons (.text "T") .nil)) "S" "scene" (some "T") false
    "Q" "p" none false (.cons (.text "x") .nil) .nil .nil
    (by decide) (by decide) (by decide)

/-! ## Claim C4 -/

/-- C4: header-mismatch repair (`checkBlockHeader`) on a container at
index `i` of its sibling list behaves exactly as claimed: (a) a container
with no children is deleted entirely; (b) a correct first-child header
type changes nothing; (c) with no previous sibling nothing changes;
(d) with a previous sibling of a different type nothing changes; (e) with
a previous sibling of the same container type, both containers are
unfolded and the container is merged into the previous one (children
spliced behind the previous children, merged container keeps the previous
container's identity with `folded` cleared, the emptied container
removed, later siblings shifted down). -/
theorem C4_header_mismatch_repair (sibs : EList) (i : Nat) (ty : String)
    (bid bty : String) (bnm : Option String) (bf : Bool) (kids : EList)
    (hblock : egetIdx sibs i = some (.elem bid bty bnm bf kids)) :
    (kids = .nil →
      (checkBlockHeaderL sibs i ty).2 = false ∧
      (checkBlockHeaderL sibs i ty).1 = eEraseIdx sibs i ∧
      elen (checkBlockHeaderL sibs i ty).1 + 1 = elen sibs) ∧
    (kids ≠ .nil → eheadType kids = some ty →
      checkBlockHeaderL sibs i ty = (sibs, true)) ∧
    (kids ≠ .nil → eheadType kids ≠ some ty → i = 0 →
      checkBlockHeaderL sibs i ty = (sibs, true)) ∧
    (∀ j prev, kids ≠ .nil → eheadType kids ≠ some ty → i = j + 1 →
      egetIdx sibs j = some prev → etype prev ≠ some bty →
      checkBlockHeaderL sibs i ty = (sibs, true)) ∧
    (∀ j pid pnm pf pkids, kids ≠ .nil → eheadType kids ≠ some ty → i = j + 1 →
      egetIdx sibs j = some (.elem pid bty pnm pf pkids) →
      (checkBlockHeaderL sibs i ty).2 = false ∧
      egetIdx (checkBlockHeaderL sibs i ty).1 j =
        some (.elem pid bty pnm false (eAppend pkids kids)) ∧
      elen (checkBlockHeaderL sibs i ty).1 + 1 = elen sibs ∧
      (∀ k, k < j → egetIdx (checkBlockHeaderL sibs i ty).1 k = egetIdx sibs k) ∧
      (∀ k, j < k → egetIdx (checkBlockHeaderL sibs i ty).1 k = egetIdx sibs (k + 1))) := by
  refine ⟨?_, ?_, ?_, ?_, ?_⟩
  · intro hk
    subst hk
    refine ⟨by simp [checkBlockHeaderL, hblock], by simp [checkBlockHeaderL, hblock], ?_⟩
    have h2 : (checkBlockHeaderL sibs i ty).1 = eEraseIdx sibs i := by
      simp [checkBlockHeaderL, hblock]
    rw [h2]
    exact elen_eEraseIdx sibs i _ hblock
  · intro hk hh
    cases kids with
    | nil => exact absurd rfl hk
    | cons c cs => simp [checkBlockHeaderL, hblock, hh]
  · intro hk hh hi
    subst hi
    cases kids with
    | nil => exact absurd rfl hk
    | cons c cs => simp [checkBlockHeaderL, hblock, hh]
  · intro j prev hk hh hi hprev hne
    subst hi
    cases kids with
    | nil => exact absurd rfl hk
    | cons c cs => simp [checkBlockHeaderL, hblock, hh, hprev, hne]
  · intro j pid pnm pf pkids hk hh hi hprev
    subst hi
    have hres : checkBlockHeaderL sibs (j + 1) ty =
        (mergePair (unfoldIdx (unfoldIdx sibs j) (j + 1)) j, false) := by
      cases kids with
      | nil => exact absurd rfl hk
      | cons c cs => simp [checkBlockHeaderL, hblock, hh, hprev, etype]
    have hu1j : egetIdx (unfoldIdx sibs j) j = some (.elem pid bty pnm false pkids) := by
      rw [unfoldIdx, egetIdx_emodifyIdx, hprev]
      rfl
    have hu2j : egetIdx (unfoldIdx (unfoldIdx sibs j) (j + 1)) j =
        some (.elem pid bty pnm false pkids) := by
      rw [unfoldIdx, egetIdx_emodifyIdx_ne _ _ _ _ (by omega)]
      exact hu1j
    have hu1s : egetIdx (unfoldIdx sibs j) (j + 1) = some (.elem bid bty bnm bf kids) := by
      rw [unfoldIdx, egetIdx_emodifyIdx_ne _ _ _ _ (by omega)]
      exact hblock
    have hu2s : egetIdx (unfoldIdx (unfoldIdx sibs j) (j + 1)) (j + 1) =
        some (.elem bid bty bnm false kids) := by
      rw [unfoldIdx, egetIdx_emodifyIdx, hu1s]
      rfl
    refine ⟨by rw [hres], ?_, ?_, ?_, ?_⟩
    · rw [hres]
      simpa [mergeNodesE] using mergePair_get_self _ j _ _ hu2j hu2s
    · rw [hres]
      have := mergePair_elen _ j _ _ hu2j hu2s
      simpa [unfoldIdx, elen_emodifyIdx] using this
    · intro k hkj
      rw [hres]
      show egetIdx (mergePair (unfoldIdx (unfoldIdx sibs j) (j + 1)) j) k = egetIdx sibs k
      rw [mergePair_get_lt _ j k hkj]
      rw [unfoldIdx, egetIdx_emodifyIdx_ne _ _ _ _ (by omega)]
      rw [unfoldIdx, egetIdx_emodifyIdx_ne _ _ _ _ (by omega)]
    · intro k hkj
      rw [hres]
      show egetIdx (mergePair (unfoldIdx (unfoldIdx sibs j) (j + 1)) j) k = egetIdx sibs (k + 1)
      rw [mergePair_get_gt _ j k hkj]
      rw [unfoldIdx, egetIdx_emodifyIdx_ne _ _ _ _ (by omega)]
      rw [unfoldIdx, egetIdx_emodifyIdx_ne _ _ _ _ (by omega)]

/-- C4 witness: merging the folded scene `s2` (whose first child is a
paragraph) into its predecessor `s1`. -/
theorem C4_header_mismatch_repair_witness :
    (checkBlockHeaderL c4sibs 1 "hscene").2 = false ∧
    egetIdx (checkBlockHeaderL c4sibs 1 "hscene").1 0 =
      some (.elem "s1" "scene" (some "A") false
        (eAppend (.cons (.elem "h1" "hscene" none false (.cons (.text "A") .nil)) .nil)
          (.cons (.elem "q2" "p" none false (.cons (.text "y") .nil)) .nil))) ∧
    elen (checkBlockHeaderL c4sibs 1 "hscene").1 + 1 = elen c4sibs ∧
    (∀ k, k < 0 → egetIdx (checkBlockHeaderL c4sibs 1 "hscene").1 k = egetIdx c4sibs k) ∧
    (∀ k, 0 < k → egetIdx (checkBlockHeaderL c4sibs 1 "hscene").1 k = egetIdx c4sibs (k + 1)) :=
  (C4_header_mismatch_repair c4sibs 1 "hscene" "s2" "scene" (some "B") true
      (.cons (.elem "q2" "p" none false (.cons (.text "y") .nil)) .nil)
      (by decide)).2.2.2.2 0 "s1" (some "A") false
    (.cons (.elem "h1" "hscene" none false (.cons (.text "A") .nil)) .nil)
    (by decide) (by decide) rfl (by decide)

/-! ## Further helper lemmas -/

theorem foldedAt_setFoldedAtE_self (t : EList) (q : List Nat) :
    foldedAt (setFoldedAtE t q false) q = false := by
  have h := getNodeE_setAtE_self q t (fun n =>
    match n with
    | .elem id ty nm _ k => .elem id ty nm false k
    | x => x)
  rw [foldedAt, setFoldedAtE, h]
  cases hx : getNodeE t q with
  | none => simp
  | some n =>
    cases n with
    | text s => simp
    | elem a b c d k => simp

theorem strTake_append_strDrop (s : String) (n : Nat) : strTake s n ++ strDrop s n = s := by
  rw [strTake, strDrop]
  cases s with
  | mk d => exact congrArg String.mk (List.take_append_drop n d)

theorem blockAt_sound (t : EList) (p : List Nat) (bp : List Nat) (n : ENode)
    (h : blockAt t p = some (bp, n)) :
    getNodeE t bp = some n ∧ bp = p.dropLast ∧ bp ≠ [] := by
  rw [blockAt] at h
  cases hd : p.dropLast with
  | nil => rw [hd] at h; simp at h
  | cons a q =>
    rw [hd] at h
    cases hg : getNodeE t (a :: q) with
    | none => simp [hg] at h
    | some m =>
      cases m with
      | text s => simp [hg] at h
      | elem x1 x2 x3 x4 x5 =>
        simp only [hg] at h
        simp at h
        obtain ⟨h1, h2⟩ := h
        subst h1
        rw [hg, h2]
        exact ⟨rfl, rfl, by simp⟩

theorem textsBefore_deleteBefore : ∀ (kids : EList) (ci off : Nat) (cs : String),
    egetIdx kids ci = some (.text cs) →
    textsBefore kids ci off ++ listStringE (deleteBefore kids ci off) = listStringE kids
  | .nil, ci, off, cs, h => by simp [egetIdx] at h
  | .cons x xs, 0, off, cs, h => by
    have hx : x = .text cs := by simpa [egetIdx] using h
    subst hx
    rw [show textsBefore (.cons (.text cs) xs) 0 off = strTake cs off from rfl]
    rw [show deleteBefore (.cons (.text cs) xs) 0 off = .cons (.text (strDrop cs off)) xs from rfl]
    rw [show listStringE (.cons (.text (strDrop cs off)) xs) = strDrop cs off ++ listStringE xs from rfl]
    rw [show listStringE (.cons (ENode.text cs) xs) = cs ++ listStringE xs from rfl]
    rw [← String.append_assoc, strTake_append_strDrop]
  | .cons x xs, ci + 1, off, cs, h => by
    have ih := textsBefore_deleteBefore xs ci off cs (by simpa [egetIdx] using h)
    rw [show textsBefore (.cons x xs) (ci + 1) off = nodeStringE x ++ textsBefore xs ci off from rfl]
    rw [show deleteBefore (.cons x xs) (ci + 1) off = deleteBefore xs ci off from rfl]
    rw [show listStringE (.cons x xs) = nodeStringE x ++ listStringE xs from rfl]
    rw [String.append_assoc, ih]

theorem replaceWithTwo_get_self : ∀ (l : EList) (i : Nat) (n a b : ENode),
    egetIdx l i = some n → egetIdx (replaceWithTwo l i a b) i = some a
  | .nil, i, n, a, b, h => by simp [egetIdx] at h
  | .cons x xs, 0, n, a, b, h => rfl
  | .cons x xs, i + 1, n, a, b, h => by
    simpa [replaceWithTwo, egetIdx] using
      replaceWithTwo_get_self xs i n a b (by simpa [egetIdx] using h)

theorem replaceWithTwo_get_succ : ∀ (l : EList) (i : Nat) (n a b : ENode),
    egetIdx l i = some n → egetIdx (replaceWithTwo l i a b) (i + 1) = some b
  | .nil, i, n, a, b, h => by simp [egetIdx] at h
  | .cons x xs, 0, n, a, b, h => rfl
  | .cons x xs, i + 1, n, a, b, h => by
    simpa [replaceWithTwo, egetIdx] using
      replaceWithTwo_get_succ xs i n a b (by simpa [egetIdx] using h)

theorem dropLast_append_lastIdx (p : List Nat) (h : p ≠ []) :
    p.dropLast ++ [lastIdx p] = p := by
  rw [lastIdx, List.getLast?_eq_getLast p h]
  exact List.dropLast_append_getLast h

theorem sibsAt_of_getNodeE : ∀ (p : List Nat) (t : EList) (n : ENode),
    getNodeE t p = some n →
    ∃ sibs, sibsAt t p = some sibs ∧ egetIdx sibs (lastIdx p) = some n
  | [], t, n, h => by simp [getNodeE] at h
  | [i], t, n, h => ⟨t, rfl, h⟩
  | i :: j :: rest, t, n, h => by
    cases hgi : egetIdx t i with
    | none =>
      rw [show getNodeE t (i :: j :: rest) =
        (match egetIdx t i with
          | some (.elem _ _ _ _ kids) => getNodeE kids (j :: rest)
          | _ => none) from rfl, hgi] at h
      exact absurd h (by simp)
    | some child =>
      cases child with
      | text s =>
        rw [show getNodeE t (i :: j :: rest) =
          (match egetIdx t i with
            | some (.elem _ _ _ _ kids) => getNodeE kids (j :: rest)
            | _ => none) from rfl, hgi] at h
        exact absurd h (by simp)
      | elem a b c d kids =>
        have h2 : getNodeE kids (j :: rest) = some n := by
          rw [show getNodeE t (i :: j :: rest) =
            (match egetIdx t i with
              | some (.elem _ _ _ _ ks) => getNodeE ks (j :: rest)
              | _ => none) from rfl, hgi] at h
          exact h
        obtain ⟨sibs, hs, hget⟩ := sibsAt_of_getNodeE (j :: rest) kids n h2
        refine ⟨sibs, ?_, ?_⟩
        · rw [sibsAt]
          rw [show (i :: j :: rest).dropLast = i :: (j :: rest).dropLast from by
            cases rest <;> rfl]
          rw [sibsAt] at hs
          cases hd : (j :: rest).dropLast with
          | nil =>
            rw [hd] at hs
            have hkt : kids = sibs := by simpa using hs
            show (match getNodeE t [i] with
              | some (.elem _ _ _ _ ks) => some ks
              | _ => none) = some sibs
            rw [show getNodeE t [i] = egetIdx t i from rfl, hgi, hkt]
          | cons r rs =>
            rw [hd] at hs
            have hs2 : (match getNodeE kids (r :: rs) with
              | some (.elem _ _ _ _ ks) => some ks
              | _ => none) = some sibs := hs
            show (match getNodeE t (i :: r :: rs) with
              | some (.elem _ _ _ _ ks) => some ks
              | _ => none) = some sibs
            rw [show getNodeE t (i :: r :: rs) =
              (match egetIdx t i with
                | some (.elem _ _ _ _ ks) => getNodeE ks (r :: rs)
                | _ => none) from rfl, hgi]
            exact hs2
        · rw [show lastIdx (i :: j :: rest) = lastIdx (j :: rest) from by
            rw [lastIdx, lastIdx, List.getLast?_cons_cons]]
          exact hget

theorem getNodeE_editSib : ∀ (p : List Nat) (t : EList) (f : EList → Nat → EList)
    (sibs : EList) (k : Nat), sibsAt t p = some sibs → p ≠ [] →
    getNodeE (editSib t p f) (p.dropLast ++ [k]) = egetIdx (f sibs (lastIdx p)) k
  | [], _, _, _, _, _, h => absurd rfl h
  | [i], t, f, sibs, k, hs, _ => by
    have ht : t = sibs := by simpa [sibsAt] using hs
    rw [← ht]
    rfl
  | i :: j :: rest, t, f, sibs, k, hs, _ => by
    have hs0 : sibsAt t (i :: j :: rest) = some sibs := hs
    rw [sibsAt] at hs0
    rw [show (i :: j :: rest).dropLast = i :: (j :: rest).dropLast from by
      cases rest <;> rfl] at hs0
    have hchild : ∃ a b c d kids, egetIdx t i = some (.elem a b c d kids) ∧
        sibsAt kids (j :: rest) = some sibs := by
      cases hd : (j :: rest).dropLast with
      | nil =>
        rw [hd] at hs0
        have hs1 : (match getNodeE t [i] with
          | some (.elem _ _ _ _ ks) => some ks
          | _ => none) = some sibs := hs0
        rw [show getNodeE t [i] = egetIdx t i from rfl] at hs1
        cases hgi : egetIdx t i with
        | none => rw [hgi] at hs1; exact absurd hs1 (by simp)
        | some child =>
          cases child with
          | text s => rw [hgi] at hs1; exact absurd hs1 (by simp)
          | elem a b c d kids =>
            rw [hgi] at hs1
            refine ⟨a, b, c, d, kids, rfl, ?_⟩
            rw [sibsAt, hd]
            simpa using hs1
      | cons r rs =>
        rw [hd] at hs0
        have hs1 : (match getNodeE t (i :: r :: rs) with
          | some (.elem _ _ _ _ ks) => some ks
          | _ => none) = some sibs := hs0
        rw [show getNodeE t (i :: r :: rs) =
          (match egetIdx t i with
            | some (.elem _ _ _ _ ks) => getNodeE ks (r :: rs)
            | _ => none) from rfl] at hs1
        cases hgi : egetIdx t i with
        | none => rw [hgi] at hs1; exact absurd hs1 (by simp)
        | some child =>
          cases child with
          | text s => rw [hgi] at hs1; exact absurd hs1 (by simp)
          | elem a b c d kids =>
            rw [hgi] at hs1
            refine ⟨a, b, c, d, kids, rfl, ?_⟩
            rw [sibsAt, hd]
            exact hs1
    obtain ⟨a, b, c, d, kids, hgi, hs2⟩ := hchild
    have ih := getNodeE_editSib (j :: rest) kids f sibs k hs2 (by simp)
    rw [show (i :: j :: rest).dropLast = i :: (j :: rest).dropLast from by
      cases rest <;> rfl]
    rw [show lastIdx (i :: j :: rest) = lastIdx (j :: rest) from by
      rw [lastIdx, lastIdx, List.getLast?_cons_cons]]
    rw [show editSib t (i :: j :: rest) f = emodifyIdx t i (fun n =>
      match n with
      | .elem a2 b2 c2 d2 ks => .elem a2 b2 c2 d2 (editSib ks (j :: rest) f)
      | t2 => t2) from rfl]
    have hstep : ∀ (l : EList), getNodeE l (i :: ((j :: rest).dropLast ++ [k])) =
        (match egetIdx l i with
          | some (.elem _ _ _ _ ks) => getNodeE ks ((j :: rest).dropLast ++ [k])
          | _ => none) := by
      intro l
      cases hq : (j :: rest).dropLast with
      | nil => rfl
      | cons r rs => rfl
    rw [List.cons_append, hstep, egetIdx_emodifyIdx, hgi]
    exact ih

theorem str_append_empty (s : String) : s ++ "" = s := by
  cases s with
  | mk d => exact congrArg String.mk (List.append_nil d)

theorem splitKids_string : ∀ (kids : EList) (ci off : Nat) (cs : String),
    egetIdx kids ci = some (.text cs) →
    listStringE (splitKids kids ci off).1 ++ listStringE (splitKids kids ci off).2 =
      listStringE kids
  | .nil, ci, off, cs, h => by simp [egetIdx] at h
  | .cons x xs, 0, off, cs, h => by
    have hx : x = .text cs := by simpa [egetIdx] using h
    subst hx
    show (strTake cs off ++ "") ++ (strDrop cs off ++ listStringE xs) = cs ++ listStringE xs
    rw [str_append_empty, ← String.append_assoc, strTake_append_strDrop]
  | .cons x xs, ci + 1, off, cs, h => by
    have ih := splitKids_string xs ci off cs (by simpa [egetIdx] using h)
    show (nodeStringE x ++ listStringE (splitKids xs ci off).1) ++
      listStringE (splitKids xs ci off).2 = nodeStringE x ++ listStringE xs
    rw [String.append_assoc, ih]

/-! ## Claim C5 -/

/-- C5: the guarded operations of `withProtectFolds`.  When no ancestor of
the selection is folded, all four operations delegate unchanged; when a
nearest folded ancestor exists, it really is folded, `insertBreak` only
clears its folded flag (the break is consumed, the underlying break is
not invoked), and the other three operations run the underlying operation
on the unfolded state. -/
theorem C5_fold_protection (inner : EditorOps) (s : MState) (sp : MSel) (hsel : s.sel = some sp) :
    ((∀ q ∈ upPaths sp.path, foldedAt s.tree q = false) →
      (protectFolds inner).insertBreak s = inner.insertBreak s ∧
      (∀ txt, (protectFolds inner).insertText txt s = inner.insertText txt s) ∧
      (protectFolds inner).deleteBackward s = inner.deleteBackward s ∧
      (protectFolds inner).deleteForward s = inner.deleteForward s) ∧
    (∀ q, nearestFolded s.tree sp.path = some q →
      foldedAt s.tree q = true ∧
      (protectFolds inner).insertBreak s = { s with tree := setFoldedAtE s.tree q false } ∧
      foldedAt ((protectFolds inner).insertBreak s).tree q = false ∧
      (∀ txt, (protectFolds inner).insertText txt s =
        inner.insertText txt { s with tree := setFoldedAtE s.tree q false }) ∧
      (protectFolds inner).deleteBackward s =
        inner.deleteBackward { s with tree := setFoldedAtE s.tree q false } ∧
      (protectFolds inner).deleteForward s =
        inner.deleteForward { s with tree := setFoldedAtE s.tree q false }) := by
  have hrec : ({ tree := s.tree, sel := some sp } : MState) = s := by
    obtain ⟨tr, se⟩ := s
    obtain rfl : se = some sp := hsel
    rfl
  constructor
  · intro hall
    have hnone : nearestFolded s.tree sp.path = none := by
      rw [nearestFolded, List.find?_eq_none]
      intro q hq
      simp [hall q hq]
    refine ⟨?_, fun txt => ?_, ?_, ?_⟩ <;>
      simp [protectFolds, hsel, unfoldSel, hnone, hrec]
  · intro q hq
    have hfold : foldedAt s.tree q = true := by
      have h2 := hq
      rw [nearestFolded] at h2
      exact List.find?_some h2
    have hres : unfoldSel s.tree sp.path = (true, setFoldedAtE s.tree q false) := by
      simp [unfoldSel, hq]
    have hbrk : (protectFolds inner).insertBreak s = { s with tree := setFoldedAtE s.tree q false } := by
      simp [protectFolds, hsel, hres]
    refine ⟨hfold, hbrk, ?_, fun txt => ?_, ?_, ?_⟩
    · rw [hbrk]
      exact foldedAt_setFoldedAtE_self s.tree q
    · simp [protectFolds, hsel, hres]
    · simp [protectFolds, hsel, hres]
    · simp [protectFolds, hsel, hres]

/-- C5 witness: the guard on a state whose selection sits inside a folded
part, with inert underlying operations. -/
theorem C5_fold_protection_witness :
    foldedAt c5folded.tree [0] = true ∧
    (protectFolds innerNop).insertBreak c5folded =
      { c5folded with tree := setFoldedAtE c5folded.tree [0] false } ∧
    foldedAt ((protectFolds innerNop).insertBreak c5folded).tree [0] = false ∧
    (∀ txt, (protectFolds innerNop).insertText txt c5folded =
      innerNop.insertText txt { c5folded with tree := setFoldedAtE c5folded.tree [0] false }) ∧
    (protectFolds innerNop).deleteBackward c5folded =
      innerNop.deleteBackward { c5folded with tree := setFoldedAtE c5folded.tree [0] false } ∧
    (protectFolds innerNop).deleteForward c5folded =
      innerNop.deleteForward { c5folded with tree := setFoldedAtE c5folded.tree [0] false } :=
  (C5_fold_protection innerNop c5folded
    { path := [0, 0, 0], offset := 0, collapsed := true } rfl).2 [0] (by decide)

/-! ## Claim C6 -/

/-- C6: the markup-shortcut interceptor for text insertion.  With a
collapsed selection in a block, if the text from the block start to the
caret followed by the inserted text is one of the trigger sequences, the
block is retyped to the mapped style and exactly the matched prefix is
deleted (the inserted text never reaches the buffer); otherwise the
insertion is delegated to the underlying operation. -/
theorem C6_markup_shortcuts (inner : EditorOps) (txt : String) (st : MState) (sp : MSel)
    (bp : List Nat) (id ty : String) (nm : Option String) (f : Bool) (kids : EList)
    (cs : String)
    (hsel : st.sel = some sp) (hcol : sp.collapsed = true)
    (hblock : blockAt st.tree sp.path = some (bp, .elem id ty nm f kids))
    (hcaret : egetIdx kids (lastIdx sp.path) = some (.text cs)) :
    (∀ ty2, lookupS SHORTCUTS (textsBefore kids (lastIdx sp.path) sp.offset ++ txt) = some ty2 →
      markupInsertText inner txt st =
        { tree := setAtE st.tree bp fun n =>
            match n with
            | .elem id2 _ nm2 f2 ks =>
              .elem id2 ty2 nm2 f2 (deleteBefore ks (lastIdx sp.path) sp.offset)
            | x => x,
          sel := some { path := bp ++ [0], offset := 0, collapsed := true } } ∧
      getNodeE (markupInsertText inner txt st).tree bp =
        some (.elem id ty2 nm f (deleteBefore kids (lastIdx sp.path) sp.offset)) ∧
      textsBefore kids (lastIdx sp.path) sp.offset ++
        listStringE (deleteBefore kids (lastIdx sp.path) sp.offset) = listStringE kids) ∧
    (lookupS SHORTCUTS (textsBefore kids (lastIdx sp.path) sp.offset ++ txt) = none →
      markupInsertText inner txt st = inner.insertText txt st) := by
  have hci : (sp.path.getLast?).getD 0 = lastIdx sp.path := rfl
  constructor
  · intro ty2 hlk
    have hmain : markupInsertText inner txt st =
        { tree := setAtE st.tree bp fun n =>
            match n with
            | .elem id2 _ nm2 f2 ks =>
              .elem id2 ty2 nm2 f2 (deleteBefore ks (lastIdx sp.path) sp.offset)
            | x => x,
          sel := some { path := bp ++ [0], offset := 0, collapsed := true } } := by
      rw [markupInsertText, hsel]
      simp [hcol, hblock, hci, hlk]
    refine ⟨hmain, ?_, textsBefore_deleteBefore kids (lastIdx sp.path) sp.offset cs hcaret⟩
    rw [hmain]
    have hg := (blockAt_sound st.tree sp.path bp _ hblock).1
    show getNodeE (setAtE st.tree bp _) bp = _
    rw [getNodeE_setAtE_self, hg]
    rfl
  · intro hlk
    rw [markupInsertText, hsel]
    simp [hcol, hblock, hci, hlk]

/-- C6 witness: typing the space of `** ` in a paragraph holding `**`
turns it into an empty `hpart`. -/
theorem C6_markup_shortcuts_witness :
    markupInsertText innerNop " " c6state =
      { tree := setAtE c6state.tree [0] fun n =>
          match n with
          | .elem id2 _ nm2 f2 ks => .elem id2 "hpart" nm2 f2 (deleteBefore ks 0 2)
          | x => x,
        sel := some { path := [0, 0], offset := 0, collapsed := true } } ∧
    getNodeE (markupInsertText innerNop " " c6state).tree [0] =
      some (.elem "pb" "hpart" none false (deleteBefore (.cons (.text "**") .nil) 0 2)) ∧
    textsBefore (.cons (.text "**") .nil) 0 2 ++
      listStringE (deleteBefore (.cons (.text "**") .nil) 0 2) =
      listStringE (.cons (.text "**") .nil) :=
  (C6_markup_shortcuts innerNop " " c6state
    { path := [0, 0], offset := 2, collapsed := true }
    [0] "pb" "p" none false (.cons (.text "**") .nil) "**"
    rfl rfl (by decide) (by decide)).1 "hpart" (by decide)

/-! ## Claim C7 -/

/-- C7 counterexample: a line break in an empty `synopsis` block — a type
with a defined successor style — does not split the block: the block is
retyped to `p` in place and the tree still holds a single block. -/
theorem C7_counterexample :
    markupInsertBreak innerNop c7reset =
      { tree := .cons (.elem "b1" "p" none false (.cons (.text "") .nil)) .nil,
        sel := some { path := [0, 0], offset := 0, collapsed := true } } ∧
    elen (markupInsertBreak innerNop c7reset).tree = 1 :=
  ⟨by decide, by decide⟩

/-- C7 (amended): with a collapsed selection in a block whose type has a
successor style, and which is not an empty block of a reset-on-empty
type, the break splits the block in two at the caret: the first half
keeps the type and the text before the caret, the new second half gets
the successor type and the text after the caret, and no text is lost. -/
theorem C7_styleafter_break (inner : EditorOps) (st : MState) (sp : MSel)
    (bp : List Nat) (id ty ty2 : String) (nm : Option String) (f : Bool) (kids : EList)
    (cs : String)
    (hsel : st.sel = some sp) (hcol : sp.collapsed = true)
    (hblock : blockAt st.tree sp.path = some (bp, .elem id ty nm f kids))
    (hsty : lookupS STYLEAFTER ty = some ty2)
    (hnr : ¬(RESETEMPTY.contains ty = true ∧ listStringE kids = ""))
    (hcaret : egetIdx kids (lastIdx sp.path) = some (.text cs)) :
    markupInsertBreak inner st =
      { tree := editSib st.tree bp fun l i =>
          replaceWithTwo l i (.elem id ty nm f (splitKids kids (lastIdx sp.path) sp.offset).1)
            (.elem id ty2 nm f (splitKids kids (lastIdx sp.path) sp.offset).2),
        sel := some { path := incLast bp ++ [0], offset := 0, collapsed := true } } ∧
    getNodeE (markupInsertBreak inner st).tree bp =
      some (.elem id ty nm f (splitKids kids (lastIdx sp.path) sp.offset).1) ∧
    getNodeE (markupInsertBreak inner st).tree (incLast bp) =
      some (.elem id ty2 nm f (splitKids kids (lastIdx sp.path) sp.offset).2) ∧
    listStringE (splitKids kids (lastIdx sp.path) sp.offset).1 ++
      listStringE (splitKids kids (lastIdx sp.path) sp.offset).2 = listStringE kids := by
  have hci : (sp.path.getLast?).getD 0 = lastIdx sp.path := rfl
  have hmain : markupInsertBreak inner st =
      { tree := editSib st.tree bp fun l i =>
          replaceWithTwo l i (.elem id ty nm f (splitKids kids (lastIdx sp.path) sp.offset).1)
            (.elem id ty2 nm f (splitKids kids (lastIdx sp.path) sp.offset).2),
        sel := some { path := incLast bp ++ [0], offset := 0, collapsed := true } } := by
    rw [markupInsertBreak, hsel]
    by_cases hc : RESETEMPTY.contains ty = true
    · have hne : listStringE kids ≠ "" := fun he => hnr ⟨hc, he⟩
      have hmem : ty ∈ RESETEMPTY := by simpa using hc
      simp [hcol, hblock, hci, hsty, hmem, hne]
    · have hmem : ty ∉ RESETEMPTY := by simpa using hc
      simp [hcol, hblock, hci, hsty, hmem]
  obtain ⟨hG, hbp, hbpne⟩ := blockAt_sound st.tree sp.path bp _ hblock
  obtain ⟨sibs, hsibs, hsget⟩ := sibsAt_of_getNodeE bp st.tree _ hG
  have hed1 := getNodeE_editSib bp st.tree
    (fun l i => replaceWithTwo l i
      (.elem id ty nm f (splitKids kids (lastIdx sp.path) sp.offset).1)
      (.elem id ty2 nm f (splitKids kids (lastIdx sp.path) sp.offset).2))
    sibs (lastIdx bp) hsibs hbpne
  have hed2 := getNodeE_editSib bp st.tree
    (fun l i => replaceWithTwo l i
      (.elem id ty nm f (splitKids kids (lastIdx sp.path) sp.offset).1)
      (.elem id ty2 nm f (splitKids kids (lastIdx sp.path) sp.offset).2))
    sibs (lastIdx bp + 1) hsibs hbpne
  rw [dropLast_append_lastIdx bp hbpne] at hed1
  refine ⟨hmain, ?_, ?_, splitKids_string kids (lastIdx sp.path) sp.offset cs hcaret⟩
  · rw [hmain]
    show getNodeE (editSib st.tree bp _) bp = _
    rw [hed1]
    exact replaceWithTwo_get_self sibs (lastIdx bp) _ _ _ hsget
  · rw [hmain]
    show getNodeE (editSib st.tree bp _) (incLast bp) = _
    rw [show incLast bp = bp.dropLast ++ [lastIdx bp + 1] from rfl]
    rw [hed2]
    exact replaceWithTwo_get_succ sibs (lastIdx bp) _ _ _ hsget

/-- C7 witness: the scenario — a break at the end of an `hscene` block
holding `Ch1` yields the original `hscene Ch1` followed by a new empty
`p`. -/
theorem C7_styleafter_break_witness :
    getNodeE (markupInsertBreak innerNop c7scenario).tree [0] =
      some (.elem "h1" "hscene" none false (.cons (.text "Ch1") .nil)) ∧
    getNodeE (markupInsertBreak innerNop c7scenario).tree [1] =
      some (.elem "h1" "p" none false (.cons (.text "") .nil)) :=
  ⟨(C7_styleafter_break innerNop c7scenario
      { path := [0, 0], offset := 3, collapsed := true }
      [0] "h1" "hscene" "p" none false (.cons (.text "Ch1") .nil) "Ch1"
      rfl rfl (by decide) (by decide) (by decide) (by decide)).2.1,
    (C7_styleafter_break innerNop c7scenario
      { path := [0, 0], offset := 3, collapsed := true }
      [0] "h1" "hscene" "p" none false (.cons (.text "Ch1") .nil) "Ch1"
      rfl rfl (by decide) (by decide) (by decide) (by decide)).2.2.1⟩

/-! ## Claim C3 -/

mutual
theorem idPassN_spec (gen : Nat → String) (A : List String)
    (hA : ∀ k, gen k ∉ A) (hinj : ∀ j k, gen j = gen k → j = k) (hne : ∀ k, gen k ≠ "") :
    ∀ (n : ENode) (seen : List String) (ctr : Nat),
    IdInv A gen seen ctr → (∀ x ∈ cIdsN n, x ∈ A) →
    (ctr ≤ (idPassN gen seen ctr n).2.2 ∧
     IdInv A gen (idPassN gen seen ctr n).2.1 (idPassN gen seen ctr n).2.2 ∧
     (∀ x ∈ seen, x ∈ (idPassN gen seen ctr n).2.1) ∧
     (cIdsN (idPassN gen seen ctr n).1).Nodup ∧
     (∀ x ∈ cIdsN (idPassN gen seen ctr n).1,
        x ∉ seen ∧ x ∈ (idPassN gen seen ctr n).2.1 ∧ x ≠ ""))
  | .text s, seen, ctr, hInv, hsub => by
    refine ⟨le_refl ctr, hInv, fun x hx => hx, ?_, ?_⟩
    · simp [idPassN, cIdsN]
    · intro x hx
      simp [idPassN, cIdsN] at hx
  | .elem id ty nm f kids, seen, ctr, hInv, hsub => by
    have hsubk : ∀ x ∈ cIdsL kids, x ∈ A := by
      intro x hx
      refine hsub x ?_
      show x ∈ id :: cIdsL kids
      exact List.mem_cons_of_mem _ hx
    by_cases hcond : (id = "" || seen.contains id) = true
    · have hnidseen : gen ctr ∉ seen := by
        intro hmem
        rcases hInv (gen ctr) hmem with hA2 | ⟨j, hj, hEq⟩
        · exact hA ctr hA2
        · have := hinj ctr j hEq
          omega
      have hInv1 : IdInv A gen (gen ctr :: seen) (ctr + 1) := by
        intro x hx
        rcases List.mem_cons.mp hx with rfl | hx2
        · exact Or.inr ⟨ctr, by omega, rfl⟩
        · rcases hInv x hx2 with h | ⟨j, hj, hEq⟩
          · exact Or.inl h
          · exact Or.inr ⟨j, by omega, hEq⟩
      have hrec := idPassL_spec gen A hA hinj hne kids (gen ctr :: seen) (ctr + 1) hInv1 hsubk
      have hunf : idPassN gen seen ctr (.elem id ty nm f kids) =
          (.elem (gen ctr) ty nm f (idPassL gen (gen ctr :: seen) (ctr + 1) kids).1,
           (idPassL gen (gen ctr :: seen) (ctr + 1) kids).2.1,
           (idPassL gen (gen ctr :: seen) (ctr + 1) kids).2.2) := by
        simp only [idPassN]
        rw [if_pos hcond]
      rw [hunf]
      refine ⟨?_, hrec.2.1, ?_, ?_, ?_⟩
      · show ctr ≤ (idPassL gen (gen ctr :: seen) (ctr + 1) kids).2.2
        have := hrec.1
        omega
      · intro x hx
        exact hrec.2.2.1 x (List.mem_cons_of_mem _ hx)
      · show (gen ctr :: cIdsL (idPassL gen (gen ctr :: seen) (ctr + 1) kids).1).Nodup
        refine List.Nodup.cons ?_ hrec.2.2.2.1
        intro hmem
        exact (hrec.2.2.2.2 (gen ctr) hmem).1 (List.mem_cons_self _ _)
      · intro x hx
        rcases List.mem_cons.mp (show x ∈ gen ctr ::
            cIdsL (idPassL gen (gen ctr :: seen) (ctr + 1) kids).1 from hx) with rfl | hx2
        · exact ⟨hnidseen, hrec.2.2.1 (gen ctr) (List.mem_cons_self _ _), hne ctr⟩
        · obtain ⟨hn1, hn2, hn3⟩ := hrec.2.2.2.2 x hx2
          exact ⟨fun hmem => hn1 (List.mem_cons_of_mem _ hmem), hn2, hn3⟩
    · have hidne : id ≠ "" := by
        intro h
        exact hcond (by simp [h])
      have hidseen : id ∉ seen := by
        intro hmem
        refine hcond ?_
        simp
        exact Or.inr hmem
      have hidA : id ∈ A := hsub id (List.mem_cons_self _ _)
      have hInv1 : IdInv A gen (id :: seen) ctr := by
        intro x hx
        rcases List.mem_cons.mp hx with rfl | hx2
        · exact Or.inl hidA
        · exact hInv x hx2
      have hrec := idPassL_spec gen A hA hinj hne kids (id :: seen) ctr hInv1 hsubk
      have hunf : idPassN gen seen ctr (.elem id ty nm f kids) =
          (.elem id ty nm f (idPassL gen (id :: seen) ctr kids).1,
           (idPassL gen (id :: seen) ctr kids).2.1,
           (idPassL gen (id :: seen) ctr kids).2.2) := by
        simp only [idPassN]
        rw [if_neg (by simpa using hcond)]
      rw [hunf]
      refine ⟨hrec.1, hrec.2.1, ?_, ?_, ?_⟩
      · intro x hx
        exact hrec.2.2.1 x (List.mem_cons_of_mem _ hx)
      · show (id :: cIdsL (idPassL gen (id :: seen) ctr kids).1).Nodup
        refine List.Nodup.cons ?_ hrec.2.2.2.1
        intro hmem
        exact (hrec.2.2.2.2 id hmem).1 (List.mem_cons_self _ _)
      · intro x hx
        rcases List.mem_cons.mp (show x ∈ id ::
            cIdsL (idPassL gen (id :: seen) ctr kids).1 from hx) with hx1 | hx2
        · subst hx1
          exact ⟨hidseen, hrec.2.2.1 x (List.mem_cons_self _ _), hidne⟩
        · obtain ⟨hn1, hn2, hn3⟩ := hrec.2.2.2.2 x hx2
          exact ⟨fun hmem => hn1 (List.mem_cons_of_mem _ hmem), hn2, hn3⟩

theorem idPassL_spec (gen : Nat → String) (A : List String)
    (hA : ∀ k, gen k ∉ A) (hinj : ∀ j k, gen j = gen k → j = k) (hne : ∀ k, gen k ≠ "") :
    ∀ (l : EList) (seen : List String) (ctr : Nat),
    IdInv A gen seen ctr → (∀ x ∈ cIdsL l, x ∈ A) →
    (ctr ≤ (idPassL gen seen ctr l).2.2 ∧
     IdInv A gen (idPassL gen seen ctr l).2.1 (idPassL gen seen ctr l).2.2 ∧
     (∀ x ∈ seen, x ∈ (idPassL gen seen ctr l).2.1) ∧
     (cIdsL (idPassL gen seen ctr l).1).Nodup ∧
     (∀ x ∈ cIdsL (idPassL gen seen ctr l).1,
        x ∉ seen ∧ x ∈ (idPassL gen seen ctr l).2.1 ∧ x ≠ ""))
  | .nil, seen, ctr, hInv, hsub => by
    refine ⟨le_refl ctr, hInv, fun x hx => hx, ?_, ?_⟩
    · simp [idPassL, cIdsL]
    · intro x hx
      simp [idPassL, cIdsL] at hx
  | .cons x xs, seen, ctr, hInv, hsub => by
    have hsub1 : ∀ y ∈ cIdsN x, y ∈ A := by
      intro y hy
      refine hsub y ?_
      show y ∈ cIdsN x ++ cIdsL xs
      exact List.mem_append_left _ hy
    have hsub2 : ∀ y ∈ cIdsL xs, y ∈ A := by
      intro y hy
      refine hsub y ?_
      show y ∈ cIdsN x ++ cIdsL xs
      exact List.mem_append_right _ hy
    have h1 := idPassN_spec gen A hA hinj hne x seen ctr hInv hsub1
    have h2 := idPassL_spec gen A hA hinj hne xs (idPassN gen seen ctr x).2.1
      (idPassN gen seen ctr x).2.2 h1.2.1 hsub2
    have hunf : idPassL gen seen ctr (.cons x xs) =
        (.cons (idPassN gen seen ctr x).1
          (idPassL gen (idPassN gen seen ctr x).2.1 (idPassN gen seen ctr x).2.2 xs).1,
         (idPassL gen (idPassN gen seen ctr x).2.1 (idPassN gen seen ctr x).2.2 xs).2.1,
         (idPassL gen (idPassN gen seen ctr x).2.1 (idPassN gen seen ctr x).2.2 xs).2.2) := rfl
    rw [hunf]
    refine ⟨?_, h2.2.1, ?_, ?_, ?_⟩
    · show ctr ≤ (idPassL gen (idPassN gen seen ctr x).2.1 (idPassN gen seen ctr x).2.2 xs).2.2
      have := h1.1
      have := h2.1
      omega
    · intro y hy
      exact h2.2.2.1 y (h1.2.2.1 y hy)
    · show (cIdsN (idPassN gen seen ctr x).1 ++
        cIdsL (idPassL gen (idPassN gen seen ctr x).2.1 (idPassN gen seen ctr x).2.2 xs).1).Nodup
      refine List.Nodup.append h1.2.2.2.1 h2.2.2.2.1 ?_
      intro a ha hb
      exact (h2.2.2.2.2 a hb).1 ((h1.2.2.2.2 a ha).2.1)
    · intro y hy
      rcases List.mem_append.mp (show y ∈ cIdsN (idPassN gen seen ctr x).1 ++
          cIdsL (idPassL gen (idPassN gen seen ctr x).2.1
            (idPassN gen seen ctr x).2.2 xs).1 from hy) with hy1 | hy2
      · obtain ⟨ha, hb, hc⟩ := h1.2.2.2.2 y hy1
        exact ⟨ha, h2.2.2.1 y hb, hc⟩
      · obtain ⟨ha, hb, hc⟩ := h2.2.2.2.2 y hy2
        exact ⟨fun hmem => ha (h1.2.2.1 y hmem), hb, hc⟩
end

/-- C3: after the Identity Enforcer pass (`withIDs`, which the composed
normalizer runs exactly when the normalized path is the editor root),
every element node of the tree carries a non-empty id and all element
ids are pairwise distinct, under the hypothesis that the identifier
generator only returns non-empty, pairwise-distinct values that do not
occur in the tree (a reading of "nanoid returns values never yet present
in the tree"). -/
theorem C3_identifier_uniqueness (gen : Nat → String) (t : EList) (ctr : Nat)
    (hne : ∀ k, gen k ≠ "") (hinj : ∀ j k, gen j = gen k → j = k)
    (hfresh : ∀ k, gen k ∉ cIdsL t) :
    (cIdsL (idPassL gen [] ctr t).1).Nodup ∧
    (∀ x ∈ cIdsL (idPassL gen [] ctr t).1, x ≠ "") := by
  have h := idPassL_spec gen (cIdsL t) hfresh hinj hne t [] ctr
    (fun x hx => absurd hx (List.not_mem_nil x)) (fun x hx => hx)
  exact ⟨h.2.2.2.1, fun x hx => (h.2.2.2.2 x hx).2.2⟩

theorem genX_ne_empty : ∀ k, genX k ≠ "" := by
  intro k h
  have hd := congrArg (fun s => s.data.length) h
  simp [genX] at hd

theorem genX_inj : ∀ j k, genX j = genX k → j = k := by
  intro j k h
  have hd := congrArg (fun s => s.data.length) h
  simp [genX] at hd
  exact hd

theorem genX_fresh_c3 : ∀ k, genX k ∉ cIdsL c3tree := by
  intro k hmem
  have hk : genX k = "a" := by
    simpa [c3tree, cIdsL, cIdsN] using hmem
  have hd := congrArg String.data hk
  simp [genX, List.replicate_succ] at hd

/-- C3 witness: the Identity Enforcer pass on the two-node tree with a
duplicated id `a`, driven by the concrete generator. -/
theorem C3_identifier_uniqueness_witness :
    (cIdsL (idPassL genX [] 0 c3tree).1).Nodup ∧
    (∀ x ∈ cIdsL (idPassL genX [] 0 c3tree).1, x ≠ "") :=
  C3_identifier_uniqueness genX c3tree 0 genX_ne_empty genX_inj genX_fresh_c3

/-! ## Claim C1 -/

theorem cmpList_refl : ∀ l : JList, cmpList l l = true
  | .nil => rfl
  | .cons x xs => by simp [cmpList, cmpList_refl xs]

theorem jall_mem : ∀ (f : JNode → Bool) (l : JList), jall f l = true →
    ∀ x ∈ toListJ l, f x = true
  | f, .nil, _, x, hx => by simp [toListJ] at hx
  | f, .cons y ys, h, x, hx => by
    rw [jall] at h
    rcases List.mem_cons.mp (by simpa [toListJ] using hx) with hx1 | hx2
    · subst hx1
      exact (Bool.and_eq_true_iff.mp h).1
    · exact jall_mem f ys (Bool.and_eq_true_iff.mp h).2 x hx2

theorem lookupA_mem : ∀ (E : List (Option String × JNode)) (k : Option String) (v : JNode),
    (E.map Prod.fst).Nodup → (k, v) ∈ E → lookupA E k = some v
  | [], k, v, _, hm => by simp at hm
  | (k1, v1) :: rest, k, v, hnd, hm => by
    have hnd2 : (k1 :: rest.map Prod.fst).Nodup := hnd
    rw [lookupA]
    rcases List.mem_cons.mp hm with h1 | h2
    · have hk : k = k1 := congrArg Prod.fst h1
      have hv : v = v1 := congrArg Prod.snd h1
      subst hk
      subst hv
      rw [if_pos rfl]
    · have hk : k1 ≠ k := by
        intro he
        subst he
        exact (List.nodup_cons.mp hnd2).1 (List.mem_map.mpr ⟨(k1, v), h2, rfl⟩)
      rw [if_neg hk]
      exact lookupA_mem rest k v (List.nodup_cons.mp hnd2).2 h2

theorem para_ok (wc : JNode → Nat) (E : List (Option String × JNode)) (p : JNode)
    (hWF : isParaNoBr p = true) (hlk : lookupA E (jid p) = some p) :
    edit2paragraph wc (.map E) (elem2edit p) = .ok p := by
  cases p with
  | text s => simp [isParaNoBr] at hWF
  | elem pid ty nm f w kids =>
    rw [isParaNoBr] at hWF
    have hty : ty ≠ "br" := by
      intro h
      simp [h] at hWF
    have he : elem2edit (.elem pid ty nm f w kids) = .elem pid ty nm f w kids := by
      simp [elem2edit, hty]
    rw [he, edit2paragraph, checkClean, hlk]
    simp

theorem paras_ok (wc : JNode → Nat) (E : List (Option String × JNode)) :
    ∀ (kids : JList), jall isParaNoBr kids = true →
    (∀ p ∈ toListJ kids, lookupA E (jid p) = some p) →
    jmapM (edit2paragraph wc (.map E)) (jmapJ elem2edit kids) = .ok kids
  | .nil, _, _ => rfl
  | .cons p rest, hWF, hlk => by
    rw [jall] at hWF
    obtain ⟨h1, h2⟩ := Bool.and_eq_true_iff.mp hWF
    have hp := para_ok wc E p h1 (hlk p (by simp [toListJ]))
    have hr := paras_ok wc E rest h2 (fun q hq => hlk q (by simp [toListJ]; exact Or.inr hq))
    rw [show jmapJ elem2edit (.cons p rest) =
      .cons (elem2edit p) (jmapJ elem2edit rest) from rfl]
    rw [jmapM, hp, hr]
    rfl

theorem checkClean_group (wc : JNode → Nat) (E : List (Option String × JNode))
    (sid : String) (ty : String) (nm : Option String) (f : Option Bool) (w : Option Nat)
    (kids : JList) (hty : ty = "part" ∨ ty = "scene")
    (hlk : lookupA E (some sid) = some (.elem (some sid) ty nm f w kids)) :
    checkClean wc (.elem (some sid) ty nm f none kids) (.map E) =
      .ok (.elem (some sid) ty nm f w kids) := by
  have e1 : jid (.elem (some sid) ty nm f none kids) = some sid := rfl
  have e1w : jid (.elem (some sid) ty nm f w kids) = some sid := rfl
  by_cases heq : (JNode.elem (some sid) ty nm f none kids) = .elem (some sid) ty nm f w kids
  · simp [checkClean, e1, e1w, hlk, heq]
  · have hct : cmpType (.elem (some sid) ty nm f none kids)
        (.elem (some sid) ty nm f w kids) = true := by
      simp [cmpType, jid, jtype]
    have htys : (jtype (.elem (some sid) ty nm f none kids) == some "part" ||
        jtype (.elem (some sid) ty nm f none kids) == some "scene") = true := by
      rcases hty with h | h <;> simp [jtype, h]
    have hng : cmpNamedGroup (.elem (some sid) ty nm f none kids)
        (.elem (some sid) ty nm f w kids) = true := by
      simp [cmpNamedGroup, cmpTypeName, cmpType, jid, jtype, jname, jfolded, cmpChildren,
        jchildren, cmpList_refl]
    simp [checkClean, e1, hlk, heq, hct, htys, hng]

theorem scene_ok (wc : JNode → Nat) (gen : Nat → String) (E : List (Option String × JNode))
    (sid : String) (nm : Option String) (f : Option Bool) (w : Option Nat) (kids : JList)
    (n : Nat) (hWF : jall isParaNoBr kids = true)
    (hlk : lookupA E (some sid) = some (.elem (some sid) "scene" nm f w kids))
    (hlkp : ∀ p ∈ toListJ kids, lookupA E (jid p) = some p) :
    edit2scene wc (.map E) ((scene2edit gen (.elem (some sid) "scene" nm f w kids) n).1) =
      .ok (.elem (some sid) "scene" nm f w kids) := by
  rw [show (scene2edit gen (.elem (some sid) "scene" nm f w kids) n).1 =
    .elem (some sid) "scene" nm f none
      (.cons (.elem (some (gen n)) "hscene" none none none (.cons (.text (nm.getD "")) .nil))
        (jmapJ elem2edit kids)) from rfl]
  rw [edit2scene]
  rw [show jtail (.cons (.elem (some (gen n)) "hscene" none none none
    (.cons (.text (nm.getD "")) .nil)) (jmapJ elem2edit kids)) = jmapJ elem2edit kids from rfl]
  rw [paras_ok wc E kids hWF hlkp]
  rw [show Except.bind (Except.ok kids) _ = _ from rfl]
  exact checkClean_group wc E sid "scene" nm f w kids (Or.inr rfl) hlk

theorem scenes_ok (wc : JNode → Nat) (gen : Nat → String)
    (E : List (Option String × JNode)) :
    ∀ (kids : JList) (n : Nat), jall (isWFscene isParaNoBr) kids = true →
    (∀ sc ∈ toListJ kids, lookupA E (jid sc) = some sc) →
    (∀ sc ∈ toListJ kids, ∀ p ∈ toListJ (jkids sc), lookupA E (jid p) = some p) →
    jmapM (edit2scene wc (.map E)) ((mapAccumJ (scene2edit gen) kids n).1) = .ok kids
  | .nil, n, _, _, _ => rfl
  | .cons sc rest, n, hWF, hlk, hlkp => by
    rw [jall] at hWF
    obtain ⟨h1, h2⟩ := Bool.and_eq_true_iff.mp hWF
    cases sc with
    | text s => simp [isWFscene] at h1
    | elem sid0 sty snm sf sw skids =>
      rw [isWFscene] at h1
      obtain ⟨h11, h13⟩ := Bool.and_eq_true_iff.mp h1
      obtain ⟨h11a, h11b⟩ := Bool.and_eq_true_iff.mp h11
      obtain ⟨sid, rfl⟩ : ∃ s2, sid0 = some s2 := by
        cases sid0 with
        | none => simp [Option.isSome] at h11a
        | some s2 => exact ⟨s2, rfl⟩
      have hstyeq : sty = "scene" := by simpa using h11b
      subst hstyeq
      have hsc := scene_ok wc gen E sid snm sf sw skids n h13
        (by
          have := hlk (.elem (some sid) "scene" snm sf sw skids) (by simp [toListJ])
          simpa [jid] using this)
        (fun p hp => hlkp (.elem (some sid) "scene" snm sf sw skids) (by simp [toListJ]) p
          (by simpa [jkids] using hp))
      rw [show (mapAccumJ (scene2edit gen)
          (.cons (.elem (some sid) "scene" snm sf sw skids) rest) n).1 =
        .cons ((scene2edit gen (.elem (some sid) "scene" snm sf sw skids) n).1)
          ((mapAccumJ (scene2edit gen) rest
            ((scene2edit gen (.elem (some sid) "scene" snm sf sw skids) n).2)).1) from rfl]
      rw [jmapM, hsc]
      rw [scenes_ok wc gen E rest _ h2
        (fun q hq => hlk q (by simp [toListJ]; exact Or.inr (by simpa [toListJ] using hq)))
        (fun q hq p hp => hlkp q
          (by simp [toListJ]; exact Or.inr (by simpa [toListJ] using hq)) p hp)]
      rfl

theorem part_ok (wc : JNode → Nat) (gen : Nat → String) (E : List (Option String × JNode))
    (pid : String) (pnm : Option String) (pf : Option Bool) (pw : Option Nat) (kids : JList)
    (n : Nat) (hWF : jall (isWFscene isParaNoBr) kids = true)
    (hlk : lookupA E (some pid) = some (.elem (some pid) "part" pnm pf pw kids))
    (hlks : ∀ sc ∈ toListJ kids, lookupA E (jid sc) = some sc)
    (hlkp : ∀ sc ∈ toListJ kids, ∀ p ∈ toListJ (jkids sc), lookupA E (jid p) = some p) :
    edit2part wc (.map E) ((part2edit gen (.elem (some pid) "part" pnm pf pw kids) n).1) =
      .ok (.elem (some pid) "part" pnm pf pw kids) := by
  rw [show (part2edit gen (.elem (some pid) "part" pnm pf pw kids) n).1 =
    .elem (some pid) "part" pnm pf none
      (.cons (.elem (some (gen n)) "hpart" none none none (.cons (.text (pnm.getD "")) .nil))
        ((mapAccumJ (scene2edit gen) kids (n + 1)).1)) from rfl]
  rw [edit2part]
  rw [show jtail (.cons (.elem (some (gen n)) "hpart" none none none
      (.cons (.text (pnm.getD "")) .nil)) ((mapAccumJ (scene2edit gen) kids (n + 1)).1)) =
    (mapAccumJ (scene2edit gen) kids (n + 1)).1 from rfl]
  rw [scenes_ok wc gen E kids (n + 1) hWF hlks hlkp]
  exact checkClean_group wc E pid "part" pnm pf pw kids (Or.inl rfl) hlk

theorem parts_ok (wc : JNode → Nat) (gen : Nat → String)
    (E : List (Option String × JNode)) :
    ∀ (parts : JList) (n : Nat), jall (isWFpart isParaNoBr) parts = true →
    (∀ pt ∈ toListJ parts, lookupA E (jid pt) = some pt) →
    (∀ pt ∈ toListJ parts, ∀ sc ∈ toListJ (jkids pt), lookupA E (jid sc) = some sc) →
    (∀ pt ∈ toListJ parts, ∀ sc ∈ toListJ (jkids pt), ∀ p ∈ toListJ (jkids sc),
      lookupA E (jid p) = some p) →
    jmapM (edit2part wc (.map E)) ((mapAccumJ (part2edit gen) parts n).1) = .ok parts
  | .nil, n, _, _, _, _ => rfl
  | .cons pt rest, n, hWF, hlk, hlks, hlkp => by
    rw [jall] at hWF
    obtain ⟨h1, h2⟩ := Bool.and_eq_true_iff.mp hWF
    cases pt with
    | text s => simp [isWFpart] at h1
    | elem pid0 pty pnm pf pw kids =>
      rw [isWFpart] at h1
      obtain ⟨h11, h13⟩ := Bool.and_eq_true_iff.mp h1
      obtain ⟨h11a, h11b⟩ := Bool.and_eq_true_iff.mp h11
      obtain ⟨pid, rfl⟩ : ∃ s2, pid0 = some s2 := by
        cases pid0 with
        | none => simp [Option.isSome] at h11a
        | some s2 => exact ⟨s2, rfl⟩
      have hptyeq : pty = "part" := by simpa using h11b
      subst hptyeq
      have hpt := part_ok wc gen E pid pnm pf pw kids n h13
        (by
          have := hlk (.elem (some pid) "part" pnm pf pw kids) (by simp [toListJ])
          simpa [jid] using this)
        (fun sc hsc => hlks (.elem (some pid) "part" pnm pf pw kids) (by simp [toListJ]) sc
          (by simpa [jkids] using hsc))
        (fun sc hsc p hp => hlkp (.elem (some pid) "part" pnm pf pw kids) (by simp [toListJ]) sc
          (by simpa [jkids] using hsc) p hp)
      rw [show (mapAccumJ (part2edit gen)
          (.cons (.elem (some pid) "part" pnm pf pw kids) rest) n).1 =
        .cons ((part2edit gen (.elem (some pid) "part" pnm pf pw kids) n).1)
          ((mapAccumJ (part2edit gen) rest
            ((part2edit gen (.elem (some pid) "part" pnm pf pw kids) n).2)).1) from rfl]
      rw [jmapM, hpt]
      rw [parts_ok wc gen E rest _ h2
        (fun q hq => hlk q (by simp [toListJ]; exact Or.inr (by simpa [toListJ] using hq)))
        (fun q hq sc hsc => hlks q
          (by simp [toListJ]; exact Or.inr (by simpa [toListJ] using hq)) sc hsc)
        (fun q hq sc hsc p hp => hlkp q
          (by simp [toListJ]; exact Or.inr (by simpa [toListJ] using hq)) sc hsc p hp)]
      rfl

theorem mem_entries_part (parts : JList) (pt : JNode) (hm : pt ∈ toListJ parts)
    (he : isElemJ pt = true) : (jid pt, pt) ∈ sectionEntries parts := by
  rw [sectionEntries]
  refine List.mem_flatMap.mpr ⟨pt, hm, ?_⟩
  cases pt with
  | text s => simp [isElemJ] at he
  | elem a b c d e kids =>
    rw [partEntries]
    exact List.mem_cons_self _ _

theorem mem_entries_scene (parts : JList) (pt sc : JNode) (hmp : pt ∈ toListJ parts)
    (hms : sc ∈ toListJ (jkids pt)) (hes : isElemJ sc = true) :
    (jid sc, sc) ∈ sectionEntries parts := by
  rw [sectionEntries]
  refine List.mem_flatMap.mpr ⟨pt, hmp, ?_⟩
  cases pt with
  | text s => simp [jkids, toListJ] at hms
  | elem a b c d e kids =>
    rw [partEntries]
    refine List.mem_cons_of_mem _ ?_
    refine List.mem_flatMap.mpr ⟨sc, by simpa [jkids] using hms, ?_⟩
    cases sc with
    | text s2 => simp [isElemJ] at hes
    | elem a2 b2 c2 d2 e2 kids2 =>
      rw [sceneEntries]
      exact List.mem_cons_self _ _

theorem mem_entries_para (parts : JList) (pt sc p : JNode) (hmp : pt ∈ toListJ parts)
    (hms : sc ∈ toListJ (jkids pt)) (hmq : p ∈ toListJ (jkids sc)) :
    (jid p, p) ∈ sectionEntries parts := by
  rw [sectionEntries]
  refine List.mem_flatMap.mpr ⟨pt, hmp, ?_⟩
  cases pt with
  | text s => simp [jkids, toListJ] at hms
  | elem a b c d e kids =>
    rw [partEntries]
    refine List.mem_cons_of_mem _ ?_
    refine List.mem_flatMap.mpr ⟨sc, by simpa [jkids] using hms, ?_⟩
    cases sc with
    | text s2 => simp [jkids, toListJ] at hmq
    | elem a2 b2 c2 d2 e2 kids2 =>
      rw [sceneEntries]
      refine List.mem_cons_of_mem _ ?_
      exact List.mem_map.mpr ⟨p, by simpa [jkids] using hmq, rfl⟩

/-- C1 (amended): for every well-formed persisted section — parts of type
`part` holding scenes of type `scene` holding element paragraphs with
ids, all ids pairwise distinct, and no legacy `br` paragraph — committing
the freshly opened editable buffer back against the same section
(`updateSection(section2edit(section), section)`) returns the original
section object itself: every paragraph, scene and part is reused and no
word count is recomputed. -/
theorem C1_roundtrip_reuse (wc : JNode → Nat) (gen : Nat → String) (s : Section) (n : Nat)
    (hWF : WFsection isParaNoBr s) :
    updateSection wc (section2edit gen s n).1 (some s) = .ok s := by
  obtain ⟨hall, hnd⟩ := hWF
  have hE : ∀ (k : Option String) (v : JNode), (k, v) ∈ sectionEntries s.parts →
      lookupA (sectionEntries s.parts) k = some v :=
    fun k v hm => lookupA_mem _ k v hnd hm
  have hep : ∀ pt ∈ toListJ s.parts, isElemJ pt = true := by
    intro pt hm
    have hw := jall_mem _ _ hall pt hm
    cases pt with
    | text s2 => simp [isWFpart] at hw
    | elem a b c d e kids => rfl
  have hscWF : ∀ pt ∈ toListJ s.parts, ∀ sc ∈ toListJ (jkids pt),
      isWFscene isParaNoBr sc = true := by
    intro pt hm sc hsc
    have hw := jall_mem _ _ hall pt hm
    cases pt with
    | text s2 => simp [isWFpart] at hw
    | elem a b c d e kids =>
      rw [isWFpart] at hw
      exact jall_mem _ _ (Bool.and_eq_true_iff.mp hw).2 sc (by simpa [jkids] using hsc)
  have h1 : ∀ pt ∈ toListJ s.parts, lookupA (sectionEntries s.parts) (jid pt) = some pt :=
    fun pt hm => hE _ _ (mem_entries_part s.parts pt hm (hep pt hm))
  have h2 : ∀ pt ∈ toListJ s.parts, ∀ sc ∈ toListJ (jkids pt),
      lookupA (sectionEntries s.parts) (jid sc) = some sc := by
    intro pt hm sc hsc
    have hes : isElemJ sc = true := by
      have hw := hscWF pt hm sc hsc
      cases sc with
      | text s2 => simp [isWFscene] at hw
      | elem a b c d e kids => rfl
    exact hE _ _ (mem_entries_scene s.parts pt sc hm hsc hes)
  have h3 : ∀ pt ∈ toListJ s.parts, ∀ sc ∈ toListJ (jkids pt), ∀ p ∈ toListJ (jkids sc),
      lookupA (sectionEntries s.parts) (jid p) = some p :=
    fun pt hm sc hsc p hp => hE _ _ (mem_entries_para s.parts pt sc p hm hsc hp)
  have hmap := parts_ok wc gen (sectionEntries s.parts) s.parts n hall h1 h2 h3
  rw [updateSection]
  rw [show section2edit gen s n = mapAccumJ (part2edit gen) s.parts n from rfl]
  rw [show section2lookup s = Lookup.map (sectionEntries s.parts) from rfl]
  rw [hmap]
  simp [Except.bind, cmpList_refl]

/-- C1 witness: the round trip on the concrete well-formed section. -/
theorem C1_roundtrip_reuse_witness :
    updateSection wc0 (section2edit genX okSection 0).1 (some okSection) = .ok okSection :=
  C1_roundtrip_reuse wc0 genX okSection 0 ⟨by decide, by decide⟩

/-- C1 counterexample: a persisted section whose only paragraph is a
legacy `br` node does not round-trip to the same object — the paragraph
is rewritten to type `p` on opening, `cmpType` then fails against the
stored `br` node and the paragraph, its scene, its part and the section
are all rebuilt. -/
theorem C1_counterexample :
    updateSection wc0 (section2edit genX brSection 0).1 (some brSection) ≠ .ok brSection := by
  decide
